import Mathlib

/-!
Verification of the `simple_crawler` search-scrape pipeline
(`src/search_scrape/`): URL normalization and deduplication, URL safety
validation, the negative result cache, the bot/challenge detector, the
domain concurrency limiter and the per-URL fetch orchestration pipeline.

The Python code is shallowly embedded: strings are `List Char` (wrapped in
`String` at the interfaces), machine integers are `Int`/`Nat`, wall-clock
times are `ℚ`, fallible code returns `Except`/`Option`, and the filesystem
backing the negative cache is an explicit key-indexed map.  The parts of
the CPython standard library the code relies on (`urllib.parse`,
`ipaddress`, `str` methods) are embedded alongside, following the CPython
3.11 implementations.  Unicode-specific refinements of CPython
(`str.lower` beyond ASCII, NFKC checks on netlocs, the exact replacement
policy of lenient UTF-8 decoding) are modelled by their ASCII behaviour;
no claim below depends on the difference.
-/

set_option maxRecDepth 4096

namespace SimpleCrawler

/-! ## Python string primitives (ASCII fragment of `str` methods) -/

/-- Characters stripped by Python `str.strip()` with no argument
(ASCII whitespace). -/
def isPySpace (c : Char) : Bool :=
  c = ' ' || c = '\t' || c = '\n' || c = '\r' || c = '\x0b' || c = '\x0c'

/-- `str.lstrip()` -/
def pyLStrip (l : List Char) : List Char := l.dropWhile isPySpace

/-- `str.rstrip()` -/
def pyRStrip (l : List Char) : List Char := (l.reverse.dropWhile isPySpace).reverse

/-- `str.strip()` -/
def pyStrip (l : List Char) : List Char := pyRStrip (pyLStrip l)

/-- `str.lower` on one character (ASCII case mapping). -/
def pyLowerChar (c : Char) : Char :=
  if 'A' ≤ c && c ≤ 'Z' then Char.ofNat (c.toNat + 32) else c

/-- `str.lower` -/
def pyLower (l : List Char) : List Char := l.map pyLowerChar

/-- `str.lower` at the `String` interface. -/
def pyLowerStr (s : String) : String := ⟨pyLower s.data⟩

/-- `p` is a prefix of `l`. -/
def startsWithList (p : List Char) : List Char → Bool
  | [] => p.isEmpty
  | c :: l' =>
    match p with
    | [] => true
    | a :: p' => a = c && startsWithList p' l'

/-- `p in l` (Python substring containment): `p` occurs contiguously in `l`. -/
def occursIn (p : List Char) : List Char → Bool
  | [] => p.isEmpty
  | c :: l' => startsWithList p (c :: l') || occursIn p l'

/-- ASCII decimal digit. -/
def isAsciiDigit (c : Char) : Bool := '0' ≤ c && c ≤ '9'

/-- ASCII hex digit (the set `ipaddress._BaseV6._HEX_DIGITS` and the digits
accepted by `urllib`'s `_hextobyte`). -/
def isAsciiHexDigit (c : Char) : Bool :=
  isAsciiDigit c || ('a' ≤ c && c ≤ 'f') || ('A' ≤ c && c ≤ 'F')

/-- ASCII letter (`str.isalpha` restricted to `str.isascii`). -/
def isAsciiAlpha (c : Char) : Bool :=
  ('A' ≤ c && c ≤ 'Z') || ('a' ≤ c && c ≤ 'z')

/-- Numeric value of an ASCII hex digit. -/
def hexDigitVal (c : Char) : Nat :=
  if isAsciiDigit c then c.toNat - 48
  else if 'a' ≤ c && c ≤ 'f' then c.toNat - 87
  else c.toNat - 55

/-- `s.partition(c)[0]`: the part of `l` before the first occurrence of `c`
(all of `l` when `c` does not occur). -/
def takeUntilChar (c : Char) (l : List Char) : List Char := l.takeWhile (· ≠ c)

/-- `s.partition(c)[2]`: the part of `l` after the first occurrence of `c`
(empty when `c` does not occur). -/
def dropThroughChar (c : Char) (l : List Char) : List Char :=
  match l.dropWhile (· ≠ c) with
  | [] => []
  | _ :: t => t

/-- `s.rpartition(c)[2]`: the part of `l` after the last occurrence of `c`
(all of `l` when `c` does not occur). -/
def afterLastChar (c : Char) (l : List Char) : List Char :=
  (l.reverse.takeWhile (· ≠ c)).reverse

/-- `s.split(sep)` for a one-character separator: splits at every
occurrence, keeping empty fields (`"".split(sep) == ['']`). -/
def splitOnChar (sep : Char) : List Char → List (List Char)
  | [] => [[]]
  | c :: rest =>
    if c = sep then [] :: splitOnChar sep rest
    else
      match splitOnChar sep rest with
      | [] => [[c]]
      | g :: gs => (c :: g) :: gs

/-- Fuel-bounded digit emitter (any fuel > n computes `str(n)`;
structural recursion keeps it kernel-reducible). -/
def natToDecAux : Nat → Nat → List Char
  | 0, _ => []
  | f + 1, n =>
    if n < 10 then [Char.ofNat (48 + n)]
    else natToDecAux f (n / 10) ++ [Char.ofNat (48 + n % 10)]

/-- `str(n)` for a nonnegative integer: canonical decimal digits. -/
def natToDec (n : Nat) : List Char := natToDecAux (n + 1) n

/-- `int(s, 10)` on a string of decimal digits. -/
def decToNat (l : List Char) : Nat := l.foldl (fun a c => a * 10 + (c.toNat - 48)) 0

/-- `int(s, 16)` on a string of hex digits. -/
def hexToNat (l : List Char) : Nat := l.foldl (fun a c => a * 16 + hexDigitVal c) 0

/-! ## UTF-8 and percent-encoding (`urllib.parse` quoting helpers)

CPython encodes `str` components to UTF-8 bytes before percent-quoting and
decodes percent-unquoted bytes back with `errors='replace'`.  Bytes are
modelled as `Nat` (< 256 on every path that matters). -/

/-- UTF-8 encoding of one scalar value (`str.encode('utf-8')`, which never
fails on Lean `Char`s since they are exactly the Unicode scalar values). -/
def utf8EncodeChar (c : Char) : List Nat :=
  let n := c.toNat
  if n < 0x80 then [n]
  else if n < 0x800 then [0xC0 + n / 64, 0x80 + n % 64]
  else if n < 0x10000 then [0xE0 + n / 4096, 0x80 + n / 64 % 64, 0x80 + n % 64]
  else [0xF0 + n / 262144, 0x80 + n / 4096 % 64, 0x80 + n / 64 % 64, 0x80 + n % 64]

/-- `str.encode('utf-8')` on a whole string. -/
def utf8Encode (l : List Char) : List Nat := (l.map utf8EncodeChar).flatten

/-- UTF-8 continuation byte. -/
def isContByte (b : Nat) : Bool := 0x80 ≤ b && b ≤ 0xBF

/-- `bytes.decode('utf-8', errors='replace')`, fuel-bounded (any fuel ≥
the byte count computes it; structural recursion keeps it
kernel-reducible).  Exact on valid sequences; on invalid input it emits
U+FFFD and resynchronises at the next byte (CPython's maximal-subpart
policy differs only in how many replacement characters a garbage run
produces, which no claim depends on). -/
def utf8DecAux : Nat → List Nat → List Char
  | 0, _ => []
  | _ + 1, [] => []
  | f + 1, b :: rest =>
    if b < 0x80 then Char.ofNat b :: utf8DecAux f rest
    else if 0xC2 ≤ b && b ≤ 0xDF then
      (if 1 ≤ rest.length && isContByte (rest.headD 0) then
        Char.ofNat ((b - 0xC0) * 64 + (rest.headD 0 - 0x80)) :: utf8DecAux f (rest.drop 1)
      else '�' :: utf8DecAux f rest)
    else if 0xE0 ≤ b && b ≤ 0xEF then
      (if 2 ≤ rest.length && isContByte (rest.headD 0) && isContByte (rest.getD 1 0)
          && (!(b = 0xE0) || 0xA0 ≤ rest.headD 0) && (!(b = 0xED) || rest.headD 0 ≤ 0x9F) then
        Char.ofNat ((b - 0xE0) * 4096 + (rest.headD 0 - 0x80) * 64 + (rest.getD 1 0 - 0x80))
          :: utf8DecAux f (rest.drop 2)
      else '�' :: utf8DecAux f rest)
    else if 0xF0 ≤ b && b ≤ 0xF4 then
      (if 3 ≤ rest.length && isContByte (rest.headD 0) && isContByte (rest.getD 1 0)
          && isContByte (rest.getD 2 0)
          && (!(b = 0xF0) || 0x90 ≤ rest.headD 0) && (!(b = 0xF4) || rest.headD 0 ≤ 0x8F) then
        Char.ofNat ((b - 0xF0) * 262144 + (rest.headD 0 - 0x80) * 4096
            + (rest.getD 1 0 - 0x80) * 64 + (rest.getD 2 0 - 0x80))
          :: utf8DecAux f (rest.drop 3)
      else '�' :: utf8DecAux f rest)
    else '�' :: utf8DecAux f rest

/-- `bytes.decode('utf-8', errors='replace')`. -/
def utf8DecodeReplace (l : List Nat) : List Char := utf8DecAux l.length l

/-- `urllib.parse.quote`'s "always safe" byte set: ASCII alphanumerics and
`_.-~` (RFC 3986 unreserved). -/
def isAlwaysSafeByte (b : Nat) : Bool :=
  (48 ≤ b && b ≤ 57) || (65 ≤ b && b ≤ 90) || (97 ≤ b && b ≤ 122)
    || b = 95 || b = 46 || b = 45 || b = 126

/-- Uppercase hex digit of a value < 16 (`quote` emits `%XX` uppercase). -/
def hexDigitUpper (n : Nat) : Char :=
  if n < 10 then Char.ofNat (48 + n) else Char.ofNat (55 + n)

/-- `urllib.parse.quote(string, safe)` after UTF-8 encoding: each byte is
kept literal when always-safe or in `safe`, otherwise `%XX`. -/
def pyQuoteBytes (safe : List Nat) : List Nat → List Char
  | [] => []
  | b :: rest =>
    (if isAlwaysSafeByte b || safe.contains b then [Char.ofNat b]
     else ['%', hexDigitUpper (b / 16), hexDigitUpper (b % 16)])
      ++ pyQuoteBytes safe rest

/-- `urllib.parse.quote_plus(s, safe='')`: when `s` contains a space,
quote with space made safe and then turn spaces into `+`; otherwise plain
quote. -/
def pyQuotePlus (l : List Char) : List Char :=
  if l.contains ' ' then
    (pyQuoteBytes [32] (utf8Encode l)).map (fun c => if c = ' ' then '+' else c)
  else pyQuoteBytes [] (utf8Encode l)

/-- `urllib.parse.unquote(s, errors='replace')`: scans the string; ASCII
literals and valid `%XX` escapes accumulate as bytes which are UTF-8
decoded (leniently), an invalid `%` stays a literal `%` byte, and
non-ASCII characters pass through between decoded runs (CPython splits on
ASCII runs via `_asciire` before byte-unquoting). -/
def pyUnquoteAux : List Char → List Nat → List Char
  | [], buf => utf8DecodeReplace buf.reverse
  | '%' :: a :: b :: rest2, buf =>
    if isAsciiHexDigit a && isAsciiHexDigit b then
      pyUnquoteAux rest2 ((hexDigitVal a * 16 + hexDigitVal b) :: buf)
    else pyUnquoteAux (a :: b :: rest2) (37 :: buf)
  | '%' :: rest, buf => pyUnquoteAux rest (37 :: buf)
  | c :: rest, buf =>
    if c.toNat < 0x80 then pyUnquoteAux rest (c.toNat :: buf)
    else utf8DecodeReplace buf.reverse ++ c :: pyUnquoteAux rest []

/-- `urllib.parse.unquote` with the defaults used by `parse_qsl`. -/
def pyUnquote (l : List Char) : List Char := pyUnquoteAux l []

/-- The `.replace('+', ' ')` step of `parse_qsl` / `unquote_plus`. -/
def plusToSpace (l : List Char) : List Char :=
  l.map (fun c => if c = '+' then ' ' else c)

/-- `urllib.parse.parse_qsl(qs, keep_blank_values=True)` (default `&`
separator): split on `&`, skip empty fields, split each field at the
first `=` (a field without `=` keeps a blank value), then `+`-replace and
percent-unquote each side. -/
def parse_qsl (qs : List Char) : List (List Char × List Char) :=
  let args := if qs = [] then [] else splitOnChar '&' qs
  args.filterMap fun nv =>
    if nv = [] then none
    else
      some (pyUnquote (plusToSpace (takeUntilChar '=' nv)),
            pyUnquote (plusToSpace (dropThroughChar '=' nv)))

/-- `'&'.join l`. -/
def joinAmp : List (List Char) → List Char
  | [] => []
  | [x] => x
  | x :: y :: rest => x ++ '&' :: joinAmp (y :: rest)

/-- `urllib.parse.urlencode(pairs, doseq=True)` on string pairs: each side
is `quote_plus`-quoted, joined as `k=v` with `&`. -/
def urlencode (pairs : List (List Char × List Char)) : List Char :=
  joinAmp (pairs.map fun kv => pyQuotePlus kv.1 ++ '=' :: pyQuotePlus kv.2)

/-! ## `ipaddress` textual parsing (used by `is_ip_literal` and by
`urllib`'s bracketed-host validation) -/

/-- Lowercase hex digit (`'%x' % n` formatting). -/
def hexDigitLower (n : Nat) : Char :=
  if n < 10 then Char.ofNat (48 + n) else Char.ofNat (87 + n)

/-- Fuel-bounded hex emitter (any fuel > n computes `'%x' % n`). -/
def natToHexAux : Nat → Nat → List Char
  | 0, _ => []
  | f + 1, n =>
    if n < 16 then [hexDigitLower n]
    else natToHexAux f (n / 16) ++ [hexDigitLower (n % 16)]

/-- `'%x' % n`: canonical lowercase hex. -/
def natToHex (n : Nat) : List Char := natToHexAux (n + 1) n

/-- `ipaddress._BaseV4._parse_octet`: 1–3 ASCII decimal digits, no leading
zero (except `"0"`), value ≤ 255. -/
def parseOctet (l : List Char) : Option Nat :=
  if l = [] then none
  else if ¬ l.all isAsciiDigit then none
  else if 3 < l.length then none
  else if l ≠ ['0'] ∧ l.headD '0' = '0' then none
  else if 255 < decToNat l then none
  else some (decToNat l)

/-- `ipaddress.IPv4Address(s)._ip`: exactly four dot-separated octets. -/
def parseIPv4 (l : List Char) : Option Nat :=
  match splitOnChar '.' l with
  | [a, b, c, d] => do
    let x ← parseOctet a
    let y ← parseOctet b
    let z ← parseOctet c
    let w ← parseOctet d
    pure (((x * 256 + y) * 256 + z) * 256 + w)
  | _ => none

/-- `ipaddress._BaseV6._parse_hextet`: 1–4 ASCII hex digits
(`int('', 16)` raises, so empty fails). -/
def parseHextet (l : List Char) : Option Nat :=
  if ¬ l.all isAsciiHexDigit then none
  else if 4 < l.length then none
  else if l = [] then none
  else some (hexToNat l)

/-- `ipaddress._BaseV6._ip_int_from_string` validity (scope id handled by
`isValidIPv6`): split on `:`, rewrite an IPv4 suffix into two hextets,
allow at most one interior `::` run with endpoint rules, parse the
remaining hextets. -/
def isValidIPv6Core (l : List Char) : Bool :=
  if l = [] then false
  else
    let parts0 := splitOnChar ':' l
    if parts0.length < 3 then false
    else
      let partsOpt : Option (List (List Char)) :=
        if (parts0.getLastD []).contains '.' then
          match parseIPv4 (parts0.getLastD []) with
          | none => none
          | some v =>
            some (parts0.dropLast ++ [natToHex (v / 65536 % 65536), natToHex (v % 65536)])
        else some parts0
      match partsOpt with
      | none => false
      | some parts =>
        if 9 < parts.length then false
        else
          let n := parts.length
          let interiorEmpties :=
            (List.range n).filter fun i => decide (0 < i ∧ i < n - 1 ∧ parts.getD i [' '] = [])
          match interiorEmpties with
          | [] =>
            n = 8 && !(parts.headD [] = []) && !(parts.getLastD [] = [])
              && parts.all (fun p => (parseHextet p).isSome)
          | [i] =>
            let hiOk : Bool := if parts.headD [] = [] then i = 1 else true
            let loOk : Bool := if parts.getLastD [] = [] then i = n - 2 else true
            let hi := if parts.headD [] = [] then i - 1 else i
            let lo := (if parts.getLastD [] = [] then n - i - 2 else n - i - 1)
            hiOk && loOk && decide (hi + lo < 8)
              && (parts.take hi).all (fun p => (parseHextet p).isSome)
              && ((parts.drop (n - lo)).all fun p => (parseHextet p).isSome)
          | _ => false

/-- `ipaddress.IPv6Address(s)` validity including an optional `%scope`
(nonempty, no further `%`). -/
def isValidIPv6 (l : List Char) : Bool :=
  if l.contains '%' then
    let scope := dropThroughChar '%' l
    !(scope = []) && !(scope.contains '%') && isValidIPv6Core (takeUntilChar '%' l)
  else isValidIPv6Core l

/-! ## `urllib.parse.urlsplit` and friends (CPython 3.11) -/

/-- Parse/validation failures (`ValueError` and subclasses). -/
inductive PyErr where
  | valueError (msg : String)
deriving DecidableEq, Repr

/-- `urllib.parse._WHATWG_C0_CONTROL_OR_SPACE`. -/
def c0ControlOrSpace (c : Char) : Bool := c.toNat ≤ 0x20

/-- `urllib.parse._UNSAFE_URL_BYTES_TO_REMOVE`. -/
def isUnsafeUrlByte (c : Char) : Bool := c = '\t' || c = '\r' || c = '\n'

/-- `urllib.parse.scheme_chars`. -/
def schemeChars : List Char :=
  "abcdefghijklmnopqrstuvwxyzABCDEFGHIJKLMNOPQRSTUVWXYZ0123456789+-.".data

/-- First character is an ASCII letter (`url[0].isascii() and
url[0].isalpha()`). -/
def headIsAsciiAlpha : List Char → Bool
  | [] => false
  | c :: _ => isAsciiAlpha c

/-- The scheme-extraction step of `urlsplit`: find the first `:`; when a
valid scheme precedes it, return it lowercased together with the rest. -/
def splitScheme (url : List Char) : List Char × List Char :=
  match url.findIdx? (· = ':') with
  | none => ([], url)
  | some i =>
    if 0 < i ∧ headIsAsciiAlpha url ∧ (url.take i).all (fun c => schemeChars.contains c)
    then (pyLower (url.take i), url.drop (i + 1))
    else ([], url)

/-- Result of `urlsplit` (`SplitResult` component strings). -/
structure SplitResult where
  scheme : List Char
  netloc : List Char
  path : List Char
  query : List Char
  fragment : List Char
deriving DecidableEq, Repr

/-- `urllib.parse._check_bracketed_host`. -/
def checkBracketedHost (h : List Char) : Except PyErr Unit :=
  match h with
  | 'v' :: rest =>
    let hexs := rest.takeWhile isAsciiHexDigit
    let after := rest.dropWhile isAsciiHexDigit
    if hexs ≠ [] ∧ after.headD ' ' = '.' ∧ after.drop 1 ≠ [] ∧ ¬ (after.drop 1).contains '\n'
    then .ok () else .error (.valueError "IPvFuture address is invalid")
  | _ =>
    if (parseIPv4 h).isSome then .error (.valueError "An IPv4 address cannot be in brackets")
    else if isValidIPv6 h then .ok ()
    else .error (.valueError "ip_address: not IPv6 or IPv4")

/-- `urllib.parse.urlsplit` (with `allow_fragments=True`): lstrip C0
controls/space, remove tab/CR/LF, extract the scheme, split off the netloc
after `//` up to the first of `/?#` (validating bracket balance and any
bracketed host), then split fragment and query.  The non-ASCII NFKC netloc
check is modelled as a no-op (ASCII model). -/
def pyUrlsplit (url0 : List Char) : Except PyErr SplitResult :=
  let u1 := (url0.dropWhile c0ControlOrSpace).filter (fun c => !isUnsafeUrlByte c)
  let sp := splitScheme u1
  let scheme := sp.1
  let u2 := sp.2
  let hasNetloc := startsWithList ['/', '/'] u2
  let netloc :=
    if hasNetloc then (u2.drop 2).takeWhile (fun c => !(c = '/' || c = '?' || c = '#')) else []
  let u3 :=
    if hasNetloc then (u2.drop 2).dropWhile (fun c => !(c = '/' || c = '?' || c = '#')) else u2
  if (netloc.contains '[' && !netloc.contains ']')
      || (netloc.contains ']' && !netloc.contains '[') then
    .error (.valueError "Invalid IPv6 URL")
  else
    match (if netloc.contains '[' && netloc.contains ']' then
             checkBracketedHost (takeUntilChar ']' (dropThroughChar '[' netloc))
           else .ok ()) with
    | .error e => .error e
    | .ok _ =>
      let path0 := takeUntilChar '#' u3
      let fragment := dropThroughChar '#' u3
      .ok ⟨scheme, netloc, takeUntilChar '?' path0, dropThroughChar '?' path0, fragment⟩

/-- The character class ending a netloc in `urlsplit`. -/
def notSpecial (c : Char) : Bool := !(c = '/' || c = '?' || c = '#')

/-- `SplitResult._hostinfo`: raw hostname and optional port string out of
the netloc. -/
def hostinfoOf (netloc : List Char) : List Char × Option (List Char) :=
  let hostinfo := afterLastChar '@' netloc
  let hp :=
    if hostinfo.contains '[' then
      let bracketed := dropThroughChar '[' hostinfo
      (takeUntilChar ']' bracketed, dropThroughChar ':' (dropThroughChar ']' bracketed))
    else (takeUntilChar ':' hostinfo, dropThroughChar ':' hostinfo)
  (hp.1, if hp.2 = [] then none else some hp.2)

/-- `SplitResult.hostname`: `None` when empty, otherwise lowercased up to
any `%` zone separator (the zone id is kept verbatim). -/
def hostnameOf (netloc : List Char) : Option (List Char) :=
  let h := (hostinfoOf netloc).1
  if h = [] then none
  else if h.contains '%' then
    some (pyLower (takeUntilChar '%' h) ++ '%' :: dropThroughChar '%' h)
  else some (pyLower h)

/-- `SplitResult.port`: `None` when absent; otherwise the port string must
be ASCII digits with value ≤ 65535, else `ValueError`. -/
def portOf (netloc : List Char) : Except PyErr (Option Nat) :=
  match (hostinfoOf netloc).2 with
  | none => .ok none
  | some p =>
    if p.all isAsciiDigit then
      if decToNat p ≤ 65535 then .ok (some (decToNat p))
      else .error (.valueError "Port out of range 0-65535")
    else .error (.valueError "Port could not be cast to integer value")

/-- `urllib.parse.uses_netloc`. -/
def usesNetlocSchemes : List (List Char) :=
  [ [], "ftp".data, "http".data, "gopher".data, "nntp".data, "telnet".data
  , "imap".data, "wais".data, "file".data, "mms".data, "https".data
  , "shttp".data, "snews".data, "prospero".data, "rtsp".data, "rtsps".data
  , "rtspu".data, "rsync".data, "svn".data, "svn+ssh".data, "sftp".data
  , "nfs".data, "git".data, "git+ssh".data, "ws".data, "wss".data ]

/-- `urllib.parse.urlunsplit`. -/
def pyUrlunsplit (scheme netloc path query fragment : List Char) : List Char :=
  let url1 :=
    if netloc ≠ [] ∨ (scheme ≠ [] ∧ scheme ∈ usesNetlocSchemes ∧ ¬ startsWithList ['/', '/'] path)
    then '/' :: '/' :: (netloc ++ (if path ≠ [] ∧ path.headD '/' ≠ '/' then '/' :: path else path))
    else path
  let url2 := if scheme ≠ [] then scheme ++ ':' :: url1 else url1
  let url3 := if query ≠ [] then url2 ++ '?' :: query else url2
  if fragment ≠ [] then url3 ++ '#' :: fragment else url3

/-! ## URL utilities (`src/search_scrape/url_utils.py`) -/

/-- `DEFAULT_TRACKING_PARAMS`. -/
def DEFAULT_TRACKING_PARAMS : List (List Char) :=
  [ "utm_source".data, "utm_medium".data, "utm_campaign".data, "utm_term".data
  , "utm_content".data, "gclid".data, "fbclid".data, "igshid".data
  , "mc_cid".data, "mc_eid".data, "ref".data, "ref_src".data, "spm".data
  , "yclid".data ]

/-- Code-point comparison of strings (Python `str` `<=`). -/
def listCharLe : List Char → List Char → Bool
  | [], _ => true
  | _ :: _, [] => false
  | a :: as, b :: bs =>
    if a.toNat < b.toNat then true
    else if b.toNat < a.toNat then false
    else listCharLe as bs

/-- Python tuple comparison on `(k, v)` string pairs, as used by the
`qsl2.sort(key=lambda kv: (kv[0], kv[1]))` call. -/
def pairLe (x y : List Char × List Char) : Bool :=
  if x.1 = y.1 then listCharLe x.2 y.2 else listCharLe x.1 y.1

/-- `endswith`. -/
def endsWithList (suffix l : List Char) : Bool :=
  startsWithList suffix.reverse l.reverse

/-- `h.strip("[]")`: strip any leading/trailing `[` and `]`. -/
def stripBrackets (l : List Char) : List Char :=
  ((l.dropWhile fun c => c = '[' || c = ']').reverse.dropWhile
    fun c => c = '[' || c = ']').reverse

/-- `url_utils.normalize_url` (defaults: drop fragment, drop tracking
params): strip, split; malformed inputs (no scheme or no netloc) are
returned stripped; otherwise lowercase scheme/host, drop a default or
falsy port, default the path to `/`, refilter/sort/re-encode the query,
and reassemble without fragment. -/
def normalize_url (url : List Char) : Except PyErr (List Char) :=
  let stripped := pyStrip url
  match pyUrlsplit stripped with
  | .error e => .error e
  | .ok u =>
    let scheme := pyLower u.scheme
    if scheme = [] ∨ u.netloc = [] then .ok stripped
    else
      let host := match hostnameOf u.netloc with
        | some h => pyLower h
        | none => []
      match portOf u.netloc with
      | .error e => .error e
      | .ok port =>
        let netloc1 :=
          match port with
          | some p =>
            if p ≠ 0 ∧ ¬ ((scheme = "http".data ∧ p = 80) ∨ (scheme = "https".data ∧ p = 443))
            then host ++ ':' :: natToDec p
            else host
          | none => host
        let path := if u.path = [] then ['/'] else u.path
        let query :=
          if u.query ≠ [] then
            urlencode (List.insertionSort (fun x y => pairLe x y = true)
              ((parse_qsl u.query).filter fun kv =>
                ¬ DEFAULT_TRACKING_PARAMS.contains (pyLower kv.1)))
          else u.query
        .ok (pyUrlunsplit scheme netloc1 path query [])

/-- `normalize_url` at the `String` interface. -/
def normalize_url_str (s : String) : Except PyErr String :=
  (normalize_url s.data).map fun l => ⟨l⟩

/-- `url_utils.dedupe_urls` seen-set recursion. -/
def dedupeAux (seen : List String) : List String → List String
  | [] => []
  | u :: rest => if u ∈ seen then dedupeAux seen rest else u :: dedupeAux (u :: seen) rest

/-- `url_utils.dedupe_urls`: keep the first occurrence of each URL. -/
def dedupe_urls (urls : List String) : List String := dedupeAux [] urls

/-- `url_utils.is_localhost`. -/
def is_localhost (host : List Char) : Bool :=
  let h := stripBrackets (pyLower host)
  h = "localhost".data || h = "localhost.localdomain".data
    || endsWithList ".localhost".data h

/-- `url_utils.is_ip_literal`: strip brackets, succeed iff
`ipaddress.ip_address` parses (IPv4 first, then IPv6). -/
def is_ip_literal (host : List Char) : Bool :=
  let h := stripBrackets host
  (parseIPv4 h).isSome || isValidIPv6 h

/-- `url_utils.UrlSafetyPolicy`. -/
structure UrlSafetyPolicy where
  allowed_schemes : List String := ["http", "https"]
  max_redirects : Nat := 5
  block_private_ips : Bool := true
  block_link_local : Bool := true
  block_loopback : Bool := true
  block_multicast : Bool := true
  block_reserved : Bool := true
deriving DecidableEq, Repr

/-- A resolved address, abstracted to the `ipaddress` attributes that
`ip_is_blocked` consults. -/
structure IPAddress where
  is_loopback : Bool := false
  is_private : Bool := false
  is_link_local : Bool := false
  is_multicast : Bool := false
  is_reserved : Bool := false
  is_unspecified : Bool := false
deriving DecidableEq, Repr

/-- `url_utils.ip_is_blocked`: policy-gated attribute checks, plus the
unconditional rejection of unspecified addresses. -/
def ip_is_blocked (ip : IPAddress) (policy : UrlSafetyPolicy) : Bool :=
  if policy.block_loopback && ip.is_loopback then true
  else if policy.block_private_ips && ip.is_private then true
  else if policy.block_link_local && ip.is_link_local then true
  else if policy.block_multicast && ip.is_multicast then true
  else if policy.block_reserved && ip.is_reserved then true
  else if ip.is_unspecified then true
  else false

/-- Failures of `fetchers.validate_url_safe`: a deliberate
`UrlSafetyError`, or a propagated parser `ValueError`. -/
inductive ValidateErr where
  | urlSafety (msg : String)
  | pyErr (e : PyErr)
deriving DecidableEq, Repr

/-- `fetchers.validate_url_safe`.  DNS resolution
(`asyncio.getaddrinfo` in `_resolve_host_ips`) is abstracted as the
`resolver` argument, returning the resolved addresses of a hostname. -/
def validate_url_safe (url : String) (policy : UrlSafetyPolicy)
    (resolver : String → List IPAddress) : Except ValidateErr Unit :=
  match pyUrlsplit url.data with
  | .error e => .error (.pyErr e)
  | .ok u =>
    let scheme := pyLower u.scheme
    if (⟨scheme⟩ : String) ∉ policy.allowed_schemes then
      .error (.urlSafety "scheme not allowed")
    else
      let host : List Char := (hostnameOf u.netloc).getD []
      if host = [] then .error (.urlSafety "missing host")
      else if is_localhost host then .error (.urlSafety "localhost is blocked")
      else if is_ip_literal host then .error (.urlSafety "IP literal is blocked")
      else
        let ips := resolver ⟨host⟩
        if ips = [] then .error (.urlSafety "DNS resolution failed")
        else if ips.any (fun ip => ip_is_blocked ip policy) then
          .error (.urlSafety "resolved IP is blocked")
        else .ok ()

/-! ## Bot/challenge detector (`src/search_scrape/bot_detector.py`) -/

/-- `models.PageFetchResult`. -/
structure PageFetchResult where
  requested_url : String
  final_url : String
  status_code : Int
  content_type : Option String
  html : String
deriving DecidableEq, Repr

/-- `HttpBotDetector._PATTERNS` (each pattern is a literal string; the
compiled regex is their alternation). -/
def botPatterns : List (List Char) :=
  [ "checking your browser".data
  , "just a moment".data
  , "attention required".data
  , "cloudflare".data
  , "cdn-cgi/challenge".data
  , "enable javascript and cookies".data
  , "verify you are human".data
  , "captcha".data
  , "unusual traffic".data
  , "access denied".data
  , "bot detection".data
  , "request blocked".data ]

/-- `self._rx.search(body)`: the alternation of the literal patterns,
compiled with `re.IGNORECASE`, finds a match iff some pattern occurs in
the lowercased body (patterns are already lowercase). -/
def bodyMatchesSignature (body : List Char) : Bool :=
  botPatterns.any (fun p => occursIn p (pyLower body))

/-- `HttpBotDetector.detect`.  `treat403` is
`BotDetectionConfig.treat_403_as_suspect` (default `True`). -/
def detect (treat403 : Bool) (page : PageFetchResult) : Option String :=
  let sc := page.status_code
  let body := page.html.data
  if sc = 429 then some "rate_limited_429"
  else if sc = 401 || sc = 407 then some "auth_required"
  else if sc = 403 && treat403 then
    (if bodyMatchesSignature body then some "blocked_or_bot_403_signature"
     else some "blocked_403")
  else if sc = 200 && bodyMatchesSignature body then some "challenge_page_200"
  else none

/-- The five verdict classes named by the specification (§4.5). -/
inductive BotVerdict where
  | rate_limited
  | auth_required
  | blocked_or_bot_signature
  | blocked_weak
  | challenge_page_200
deriving DecidableEq, Repr

/-- Modelled from the spec's words (§4.5 rule list, first match wins);
compared against `detect`, the embedding of the source. -/
def detectSpec (page : PageFetchResult) : Option BotVerdict :=
  if page.status_code = 429 then some .rate_limited
  else if page.status_code = 401 || page.status_code = 407 then some .auth_required
  else if page.status_code = 403 && bodyMatchesSignature page.html.data then
    some .blocked_or_bot_signature
  else if page.status_code = 403 then some .blocked_weak
  else if page.status_code = 200 && bodyMatchesSignature page.html.data then
    some .challenge_page_200
  else none

/-- Correspondence between the reason strings returned by the code and the
spec's verdict names. -/
def verdictOfReason (r : String) : Option BotVerdict :=
  if r = "rate_limited_429" then some .rate_limited
  else if r = "auth_required" then some .auth_required
  else if r = "blocked_or_bot_403_signature" then some .blocked_or_bot_signature
  else if r = "blocked_403" then some .blocked_weak
  else if r = "challenge_page_200" then some .challenge_page_200
  else none

/-! ## Negative result cache (`src/search_scrape/cache.py`)

The cache directory is modelled as a map from file keys to file states; a
file either holds a parseable record or is unreadable/corrupt (covering
missing fields, bad JSON, and read errors alike).  Wall-clock times are
rationals.  The SHA-256 keying of `_key_path` is abstracted as the
`keyOf` field; every theorem below holds for an arbitrary key function
because `get` and `put` go through the same one. -/

/-- `cache.NegativeCacheEntry`. -/
structure NegativeCacheEntry where
  url : String
  status_code : Int
  reason : String
  created_at : ℚ
  expires_at : ℚ
deriving DecidableEq, Repr

/-- State of one on-disk cache file. -/
inductive CacheFile where
  | record (e : NegativeCacheEntry)
  | corrupt
deriving DecidableEq

/-- The cache directory: key → file state (`none` = absent). -/
abbrev CacheFs := String → Option CacheFile

/-- Write (or delete, with `none`) one file. -/
def fsWrite (fs : CacheFs) (k : String) (v : Option CacheFile) : CacheFs :=
  fun k' => if k' = k then v else fs k'

/-- `cache.NegativeCacheStore` (directory plus TTL; `keyOf` abstracts the
SHA-256 hex key of `_key_path`). -/
structure NegativeCacheStore where
  keyOf : String → String
  ttl : ℚ

/-- `NegativeCacheStore.get`: absent → no verdict; corrupt → delete, no
verdict; expired (`now >= expires_at`) → delete, no verdict; otherwise
the entry.  Returns the verdict and the directory afterwards. -/
def NegativeCacheStore.get (st : NegativeCacheStore) (fs : CacheFs) (url : String)
    (now : ℚ) : Option NegativeCacheEntry × CacheFs :=
  match fs (st.keyOf url) with
  | none => (none, fs)
  | some .corrupt => (none, fsWrite fs (st.keyOf url) none)
  | some (.record e) =>
    if e.expires_at ≤ now then (none, fsWrite fs (st.keyOf url) none)
    else (some e, fs)

/-- `NegativeCacheStore.put`: overwrite with
`expires_at = now + ttl`. -/
def NegativeCacheStore.put (st : NegativeCacheStore) (fs : CacheFs) (url : String)
    (status_code : Int) (reason : String) (now : ℚ) : CacheFs :=
  fsWrite fs (st.keyOf url)
    (some (.record ⟨url, status_code, reason, now, now + st.ttl⟩))

/-! ## Domain concurrency limiter (`src/search_scrape/concurrency.py`)

Modelled as a labelled transition system over the set of in-flight
tasks.  A task is a URL together with its progress through
`acquire`/`release`; the two semaphores are the derived counts of tasks
currently holding the global slot resp. a host slot.  `acquire` is the
two micro-steps global-then-host; `release` is host-then-global. -/

/-- `concurrency.ConcurrencyConfig`. -/
structure ConcurrencyConfig where
  global_concurrency : Nat := 6
  per_domain_concurrency : Nat := 2
deriving DecidableEq, Repr

/-- `DomainLimiter._host_key`: lowercased hostname of the URL (empty when
absent; a `urlsplit` error would propagate in Python and is modelled as
no host). -/
def hostKeyOf (url : String) : String :=
  match pyUrlsplit url.data with
  | .ok u => ⟨pyLower ((hostnameOf u.netloc).getD [])⟩
  | .error _ => ""

/-- Progress of one task through the limiter protocol. -/
inductive LimPhase where
  | idle
  | gotGlobal
  | gotBoth
  | releasedHost
  | done
deriving DecidableEq, Repr

/-- Limiter state: the in-flight tasks (URL, phase). -/
abbrev LimState := List (String × LimPhase)

/-- Phases during which the task holds the global semaphore slot. -/
def holdsGlobal : LimPhase → Bool
  | .gotGlobal => true
  | .gotBoth => true
  | .releasedHost => true
  | _ => false

/-- Number of global-semaphore slots held. -/
def heldGlobal (s : LimState) : Nat := (s.filter fun t => holdsGlobal t.2).length

/-- Number of host-semaphore slots held for host `h`. -/
def heldHost (s : LimState) (h : String) : Nat :=
  (s.filter fun t => hostKeyOf t.1 = h && t.2 = LimPhase.gotBoth).length

/-- One micro-step of the limiter: a new task appears, `acquire` takes
the global slot (when below the global ceiling) and then the host slot
(when below the per-host ceiling; URLs with no extractable host skip
it), `release` returns the host slot and then the global slot (hostless
URLs release only the global slot). -/
inductive LimStep (cfg : ConcurrencyConfig) : LimState → LimState → Prop where
  | spawn (s : LimState) (url : String) : LimStep cfg s (s ++ [(url, .idle)])
  | acqGlobal (pre post : List (String × LimPhase)) (url : String) :
      heldGlobal (pre ++ (url, .idle) :: post) < cfg.global_concurrency →
      LimStep cfg (pre ++ (url, .idle) :: post) (pre ++ (url, .gotGlobal) :: post)
  | acqHost (pre post : List (String × LimPhase)) (url : String) :
      hostKeyOf url ≠ "" →
      heldHost (pre ++ (url, .gotGlobal) :: post) (hostKeyOf url) < cfg.per_domain_concurrency →
      LimStep cfg (pre ++ (url, .gotGlobal) :: post) (pre ++ (url, .gotBoth) :: post)
  | relHost (pre post : List (String × LimPhase)) (url : String) :
      LimStep cfg (pre ++ (url, .gotBoth) :: post) (pre ++ (url, .releasedHost) :: post)
  | relGlobal (pre post : List (String × LimPhase)) (url : String) :
      LimStep cfg (pre ++ (url, .releasedHost) :: post) (pre ++ (url, .done) :: post)
  | relGlobalHostless (pre post : List (String × LimPhase)) (url : String) :
      hostKeyOf url = "" →
      LimStep cfg (pre ++ (url, .gotGlobal) :: post) (pre ++ (url, .done) :: post)

/-- States reachable from the empty limiter. -/
def LimReachable (cfg : ConcurrencyConfig) (s : LimState) : Prop :=
  Relation.ReflTransGen (LimStep cfg) [] s

/-! ## Fetch pipeline (`src/search_scrape/pipeline.py`)

`fetch_one` is modelled as a pure function over the collaborators it
calls: the fetchers may fail with a transport exception (carried as the
exception's class name), cleaner/converter are total, and the negative
cache is the store model above.  `asyncio.gather` over the candidate
URLs is modelled sequentially (per-URL outcomes touch only that URL's
cache key).  The domain limiter's acquire/release bracket every path but
does not affect results and is modelled separately above. -/

/-- `models.MarkdownDocument`. -/
structure MarkdownDocument where
  url : String
  title : String
  markdown : String
deriving DecidableEq, Repr

/-- `models.SearchResult` (fields the pipeline consumes). -/
structure SearchResult where
  rank : Int
  title : String
  url : String
  snippet : Option String := none
deriving DecidableEq, Repr

/-- `pipeline.PipelineConfig` (the fields `fetch_one`/`run` read). -/
structure PipelineConfig where
  min_html_chars_for_browser_escalation : Nat := 2000
  min_markdown_chars : Nat := 400
  treat_403_as_suspect : Bool := true
deriving DecidableEq, Repr

/-- The pipeline's collaborators: hybrid fetcher (transport failures as
exception class names), cleaner, converter, optional post-processor. -/
structure PipelineEnv where
  fetchHttp : String → Except String PageFetchResult
  fetchBrowser : String → Except String PageFetchResult
  clean : String → String × String
  convert : String → String
  post : Option (List MarkdownDocument → List MarkdownDocument) := none

/-- Steps 1–6 of `fetch_one` (negative-cache lookup, HTTP fetch with the
transport-exception handler, non-200/non-HTML/bot filters, browser
escalation with its own filters).  `.error` is an early exit with the
pipeline's result; `.ok` carries the surviving page into extraction. -/
def fetchStage (cfg : PipelineConfig) (env : PipelineEnv) (st : NegativeCacheStore)
    (fs : CacheFs) (url : String) (now : ℚ) :
    Except (Option MarkdownDocument × CacheFs) (PageFetchResult × CacheFs) :=
  let g := st.get fs url now
  match g.1 with
  | some _ => .error (none, g.2)
  | none =>
    let fs1 := g.2
    match env.fetchHttp url with
    | .error e => .error (none, st.put fs1 url 0 ("exception:" ++ e) now)
    | .ok page =>
      if page.status_code ≠ 200 then
        .error (none, st.put fs1 url page.status_code
          ("non_200:" ++ toString page.status_code) now)
      else
        let ct := pyLowerStr (page.content_type.getD "")
        if ¬ occursIn "text/html".data ct.data then
          .error (none, st.put fs1 url page.status_code ("non_html:" ++ ct) now)
        else
          match detect cfg.treat_403_as_suspect page with
          | some reason =>
            .error (none, st.put fs1 url
              (if page.status_code = 200 then 403 else page.status_code)
              ("bot:" ++ reason) now)
          | none =>
            if page.html.length < cfg.min_html_chars_for_browser_escalation then
              match env.fetchBrowser url with
              | .error _ => .ok (page, fs1)
              | .ok page2 =>
                if page2.status_code ≠ 200 then
                  .error (none, st.put fs1 url page2.status_code
                    ("browser_non_200:" ++ toString page2.status_code) now)
                else
                  let ct2 := pyLowerStr (page2.content_type.getD "")
                  if ct2 ≠ "" ∧ ¬ occursIn "text/html".data ct2.data then
                    .error (none, st.put fs1 url page2.status_code
                      ("browser_non_html:" ++ ct2) now)
                  else
                    match detect cfg.treat_403_as_suspect page2 with
                    | some reason2 =>
                      .error (none, st.put fs1 url
                        (if page2.status_code = 200 then 403 else page2.status_code)
                        ("bot:" ++ reason2) now)
                    | none => .ok (page2, fs1)
            else .ok (page, fs1)

/-- `SearchScrapePipeline.fetch_one`: the fetch stage, then extraction
(empty cleaned fragment → silent abandon), conversion (short text →
silent abandon), and document emission keyed by the final URL. -/
def fetch_one (cfg : PipelineConfig) (env : PipelineEnv) (st : NegativeCacheStore)
    (fs : CacheFs) (url : String) (now : ℚ) : Option MarkdownDocument × CacheFs :=
  match fetchStage cfg env st fs url now with
  | .error r => r
  | .ok (page, fs1) =>
    let tc := env.clean page.html
    if tc.2 = "" then (none, fs1)
    else
      let md : String := ⟨pyStrip (env.convert tc.2).data⟩
      if md.length < cfg.min_markdown_chars then (none, fs1)
      else (some ⟨page.final_url, if tc.1 = "" then page.final_url else tc.1, md⟩, fs1)

/-- The `asyncio.gather` fan-out of `run`, sequentialized: per-URL
results in order, threading the cache directory. -/
def runGather (cfg : PipelineConfig) (env : PipelineEnv) (st : NegativeCacheStore)
    (now : ℚ) : List String → CacheFs → List (Option MarkdownDocument) × CacheFs
  | [], fs => ([], fs)
  | u :: rest, fs =>
    let r := fetch_one cfg env st fs u now
    let rr := runGather cfg env st now rest r.2
    (r.1 :: rr.1, rr.2)

/-- `[normalize_url(r.url) for r in results]` (a raised `ValueError`
propagates out of `run`). -/
def normalizeAll : List String → Except PyErr (List String)
  | [] => .ok []
  | u :: rest => do
    let v ← normalize_url_str u
    let vs ← normalizeAll rest
    pure (v :: vs)

/-- The candidate-URL preparation of `run`: normalize every search-result
URL, keep those starting with `"http"`, dedupe. -/
def candidateUrls (results : List SearchResult) : Except PyErr (List String) :=
  (normalizeAll (results.map (·.url))).map fun urls =>
    dedupe_urls (urls.filter fun u => startsWithList "http".data u.data)

/-- `SearchScrapePipeline.run`: candidate URLs, concurrent `fetch_one`
fan-out, keep the non-`None` documents, optional post-processing. -/
def run (cfg : PipelineConfig) (env : PipelineEnv) (st : NegativeCacheStore)
    (results : List SearchResult) (fs : CacheFs) (now : ℚ) :
    Except PyErr (List MarkdownDocument × CacheFs) :=
  (candidateUrls results).map fun urls =>
    let rd := runGather cfg env st now urls fs
    let out := rd.1.reduceOption
    (match env.post with | some f => f out | none => out, rd.2)

end SimpleCrawler

namespace SimpleCrawler

/-- **C4.** Negative-cache round trip and self-healing reads: after
`put(url, status_code, reason)` at time `t`, a `get(url)` at any `t'`
before `t + ttl` returns the entry with that url, status code and reason
and `expires_at = t + ttl`, leaving the directory as the `put` wrote it;
a `get` on an absent key returns no verdict and leaves the directory
unchanged; a `get` on a corrupt record or on an expired record
(`t' ≥ expires_at`) returns no verdict and deletes the record as a side
effect (the model is total, so none of these raise).  Holds for every
key function, in particular the SHA-256 keying of `_key_path`. -/
theorem negative_cache_get_put (st : NegativeCacheStore) (fs : CacheFs)
    (url : String) (sc : Int) (r : String) (t t' : ℚ) :
    (t' < t + st.ttl →
      st.get (st.put fs url sc r t) url t' =
        (some ⟨url, sc, r, t, t + st.ttl⟩, st.put fs url sc r t)) ∧
    (fs (st.keyOf url) = none → st.get fs url t' = (none, fs)) ∧
    (fs (st.keyOf url) = some .corrupt →
      st.get fs url t' = (none, fsWrite fs (st.keyOf url) none)) ∧
    (∀ e, fs (st.keyOf url) = some (.record e) → e.expires_at ≤ t' →
      st.get fs url t' = (none, fsWrite fs (st.keyOf url) none)) := by
  refine ⟨?_, ?_, ?_, ?_⟩
  · intro hlt
    have hkey : (st.put fs url sc r t) (st.keyOf url) =
        some (.record ⟨url, sc, r, t, t + st.ttl⟩) := by
      simp [NegativeCacheStore.put, fsWrite]
    simp [NegativeCacheStore.get, hkey, not_le.mpr hlt]
  · intro habs
    simp [NegativeCacheStore.get, habs]
  · intro hcor
    simp [NegativeCacheStore.get, hcor]
  · intro e hrec hexp
    simp [NegativeCacheStore.get, hrec, hexp]

/-- Witness for C4 at a concrete store, directory and times. -/
theorem negative_cache_get_put_witness :
    ((NegativeCacheStore.mk id 1800).get
        ((NegativeCacheStore.mk id 1800).put (fun _ => none) "https://example.com/x" 429
          "non_200:429" 0)
        "https://example.com/x" 7 =
      (some ⟨"https://example.com/x", 429, "non_200:429", 0, 0 + 1800⟩,
        (NegativeCacheStore.mk id 1800).put (fun _ => none) "https://example.com/x" 429
          "non_200:429" 0)) ∧
    ((NegativeCacheStore.mk id 1800).get (fun _ => none) "https://example.com/x" 7 =
      (none, fun _ => none)) ∧
    ((NegativeCacheStore.mk id 1800).get
        (fun k => if k = "https://example.com/x" then some .corrupt else none)
        "https://example.com/x" 7 =
      (none, fsWrite (fun k => if k = "https://example.com/x" then some .corrupt else none)
        "https://example.com/x" none)) ∧
    ((NegativeCacheStore.mk id 1800).get
        (fun k => if k = "https://example.com/x" then
            some (.record ⟨"https://example.com/x", 0, "exception:TimeoutError", 0, 3⟩)
          else none)
        "https://example.com/x" 7 =
      (none, fsWrite
        (fun k => if k = "https://example.com/x" then
            some (.record ⟨"https://example.com/x", 0, "exception:TimeoutError", 0, 3⟩)
          else none)
        "https://example.com/x" none)) := by
  refine ⟨(negative_cache_get_put _ _ _ _ _ _ _).1 (by norm_num),
    (negative_cache_get_put (NegativeCacheStore.mk id 1800) _ _ 429 "non_200:429" 0 _).2.1 rfl,
    (negative_cache_get_put (NegativeCacheStore.mk id 1800) _ _ 429 "non_200:429" 0 _).2.2.1 (by simp),
    (negative_cache_get_put (NegativeCacheStore.mk id 1800) _ _ 429 "non_200:429" 0 _).2.2.2
      ⟨"https://example.com/x", 0, "exception:TimeoutError", 0, 3⟩ (by simp) (by norm_num)⟩

/-- A lookup that reports no verdict leaves no record behind for that
URL's key (absent stays absent; corrupt and expired records are
deleted). -/
lemma storeGet_none_key (st : NegativeCacheStore) (fs : CacheFs) (url : String) (now : ℚ)
    (h : (st.get fs url now).1 = none) : (st.get fs url now).2 (st.keyOf url) = none := by
  unfold NegativeCacheStore.get at h ⊢
  cases hf : fs (st.keyOf url) with
  | none => simp [hf]
  | some c =>
    cases c with
    | corrupt => simp [hf, fsWrite]
    | record e =>
      by_cases he : e.expires_at ≤ now
      · simp [hf, he, fsWrite]
      · simp [hf, he] at h

/-- The fetch stage hands extraction the cache directory produced by the
initial lookup, and that lookup reported no verdict. -/
lemma fetchStage_ok_state (cfg : PipelineConfig) (env : PipelineEnv)
    (st : NegativeCacheStore) (fs : CacheFs) (url : String) (now : ℚ)
    (page : PageFetchResult) (fs1 : CacheFs)
    (h : fetchStage cfg env st fs url now = .ok (page, fs1)) :
    fs1 = (st.get fs url now).2 ∧ (st.get fs url now).1 = none := by
  unfold fetchStage at h
  cases hg : (st.get fs url now).1 with
  | some e => simp [hg] at h
  | none =>
    refine ⟨?_, rfl⟩
    rcases hf : env.fetchHttp url with e | pg <;> simp [hg, hf] at h
    repeat' split at h
    all_goals simp_all

/-- **C1.** When the lightweight fetch returns a `PageFetchResult` (the
negative cache had no verdict), `fetch_one` abandons with a
negative-cache write at the first failing filter: status ≠ 200 writes
the page's status with reason `non_200:<status>`; an HTML-free
content-type writes reason `non_html:<lowercased type>`; a bot verdict
writes reason `bot:<reason>` with pseudo-status 403 when the page's
status was 200 and the page's own status otherwise.  In each case no
document is returned. -/
theorem fetch_one_negative_caches_fetch_filters
    (cfg : PipelineConfig) (env : PipelineEnv) (st : NegativeCacheStore) (fs : CacheFs)
    (url : String) (now : ℚ) (page : PageFetchResult)
    (hget : (st.get fs url now).1 = none)
    (hfetch : env.fetchHttp url = .ok page) :
    (page.status_code ≠ 200 →
      fetch_one cfg env st fs url now =
        (none, st.put (st.get fs url now).2 url page.status_code
          ("non_200:" ++ toString page.status_code) now)) ∧
    (page.status_code = 200 →
      ¬ occursIn "text/html".data (pyLowerStr (page.content_type.getD "")).data →
      fetch_one cfg env st fs url now =
        (none, st.put (st.get fs url now).2 url page.status_code
          ("non_html:" ++ pyLowerStr (page.content_type.getD "")) now)) ∧
    (∀ reason, page.status_code = 200 →
      occursIn "text/html".data (pyLowerStr (page.content_type.getD "")).data →
      detect cfg.treat_403_as_suspect page = some reason →
      fetch_one cfg env st fs url now =
        (none, st.put (st.get fs url now).2 url
          (if page.status_code = 200 then 403 else page.status_code)
          ("bot:" ++ reason) now)) := by
  refine ⟨?_, ?_, ?_⟩
  · intro h200
    simp [fetch_one, fetchStage, hget, hfetch, h200]
  · intro h200 hct
    simp [fetch_one, fetchStage, hget, hfetch, h200, hct]
  · intro reason h200 hct hbot
    simp [fetch_one, fetchStage, hget, hfetch, h200, hct, hbot]

/-- Witness for C1: a 404 page is negative-cached as `non_200:404` and
yields no document. -/
theorem fetch_one_negative_caches_fetch_filters_witness :
    fetch_one {}
      { fetchHttp := fun _ => .ok ⟨"https://e.com/a", "https://e.com/a", 404, some "text/html", ""⟩,
        fetchBrowser := fun _ => .error "RuntimeError",
        clean := fun _ => ("", ""), convert := fun _ => "" }
      ⟨id, 1800⟩ (fun _ => none) "https://e.com/a" 0 =
    (none, NegativeCacheStore.put ⟨id, 1800⟩
      ((NegativeCacheStore.get ⟨id, 1800⟩ (fun _ => none) "https://e.com/a" 0).2)
      "https://e.com/a" 404 ("non_200:" ++ toString (404 : Int)) 0) :=
  (fetch_one_negative_caches_fetch_filters {} _ ⟨id, 1800⟩ (fun _ => none) "https://e.com/a" 0
    ⟨"https://e.com/a", "https://e.com/a", 404, some "text/html", ""⟩ rfl rfl).1 (by decide)

/-- **C5.** Content-quality rejections do not touch the cache: when the
fetch stage hands a page to extraction and either the cleaned fragment is
empty or the converted text is shorter than the configured minimum,
`fetch_one` returns no document, leaves the cache directory exactly as
the initial lookup left it, the URL's key holds no record, and every
future lookup for the URL still reports no verdict (the URL stays
eligible for retry). -/
theorem fetch_one_quality_rejection_no_cache
    (cfg : PipelineConfig) (env : PipelineEnv) (st : NegativeCacheStore) (fs : CacheFs)
    (url : String) (now : ℚ) (page : PageFetchResult) (fs1 : CacheFs)
    (hstage : fetchStage cfg env st fs url now = .ok (page, fs1))
    (hq : (env.clean page.html).2 = "" ∨
      (String.mk (pyStrip (env.convert (env.clean page.html).2).data)).length
        < cfg.min_markdown_chars) :
    fetch_one cfg env st fs url now = (none, fs1) ∧
    fs1 (st.keyOf url) = none ∧
    ∀ t, st.get fs1 url t = (none, fs1) := by
  obtain ⟨hfs1, hnone⟩ := fetchStage_ok_state cfg env st fs url now page fs1 hstage
  have hkey : fs1 (st.keyOf url) = none := by
    rw [hfs1]; exact storeGet_none_key st fs url now hnone
  refine ⟨?_, hkey, fun t => ?_⟩
  · unfold fetch_one
    rw [hstage]
    rcases hq with h | h
    · simp [h]
    · by_cases hc : (env.clean page.html).2 = ""
      · simp [hc]
      · have h' : (pyStrip (env.convert (env.clean page.html).2).data).length
            < cfg.min_markdown_chars := h
        simp [hc, h']
  · simp [NegativeCacheStore.get, hkey]

/-- Witness for C5: a 200 HTML page whose cleaned fragment converts to a
too-short text yields no document and an unchanged, verdict-free cache. -/
theorem fetch_one_quality_rejection_no_cache_witness :
    fetch_one {}
      { fetchHttp := fun _ =>
          .ok ⟨"https://e.com/a", "https://e.com/a", 200, some "text/html", "<p>hi</p>"⟩,
        fetchBrowser := fun _ => .error "RuntimeError",
        clean := fun _ => ("t", "<main>hi</main>"), convert := fun _ => "hi" }
      ⟨id, 1800⟩ (fun _ => none) "https://e.com/a" 0 = (none, fun _ => none) ∧
    (fun _ => (none : Option CacheFile)) (NegativeCacheStore.keyOf ⟨id, 1800⟩ "https://e.com/a") = none ∧
    ∀ t, NegativeCacheStore.get ⟨id, 1800⟩ (fun _ => none) "https://e.com/a" t =
      (none, fun _ => none) :=
  fetch_one_quality_rejection_no_cache {}
    { fetchHttp := fun _ =>
        .ok ⟨"https://e.com/a", "https://e.com/a", 200, some "text/html", "<p>hi</p>"⟩,
      fetchBrowser := fun _ => .error "RuntimeError",
      clean := fun _ => ("t", "<main>hi</main>"), convert := fun _ => "hi" }
    ⟨id, 1800⟩ (fun _ => none) "https://e.com/a" 0
    ⟨"https://e.com/a", "https://e.com/a", 200, some "text/html", "<p>hi</p>"⟩
    (fun _ => none) rfl (Or.inr (by decide))

/-- **C6.** Per-URL failures never abort the batch: a transport
exception from the lightweight fetch is caught inside `fetch_one` and
turned into a negative-cache entry with pseudo-status 0 and reason
`exception:<class name>`, returning no document rather than
propagating; the fan-out produces exactly one outcome per candidate
URL; and (with no post-processor) `run` returns exactly the documents
of the URLs whose pipeline produced one, silently dropping the rest —
possibly an empty list, never an error. -/
theorem run_error_containment
    (cfg : PipelineConfig) (env : PipelineEnv) (st : NegativeCacheStore) (fs : CacheFs)
    (now : ℚ) :
    (∀ url e, (st.get fs url now).1 = none → env.fetchHttp url = .error e →
      fetch_one cfg env st fs url now =
        (none, st.put (st.get fs url now).2 url 0 ("exception:" ++ e) now)) ∧
    (env.post = none → ∀ results urls, candidateUrls results = .ok urls →
      run cfg env st results fs now =
        .ok ((runGather cfg env st now urls fs).1.reduceOption,
          (runGather cfg env st now urls fs).2)) ∧
    (∀ urls fs0, (runGather cfg env st now urls fs0).1.length = urls.length) ∧
    (∀ urls fs0 d, d ∈ (runGather cfg env st now urls fs0).1.reduceOption ↔
      some d ∈ (runGather cfg env st now urls fs0).1) := by
  refine ⟨?_, ?_, ?_, ?_⟩
  · intro url e hget hfetch
    simp [fetch_one, fetchStage, hget, hfetch]
  · intro hpost results urls hcand
    simp [run, hcand, hpost, Except.map]
  · intro urls
    induction urls with
    | nil => intro fs0; simp [runGather]
    | cons u rest ih => intro fs0; simp [runGather, ih]
  · intro urls fs0 d
    simp [List.reduceOption, List.mem_filterMap]

/-- Witness for C6: one candidate whose fetch raises a timeout is
converted to an `exception:`-tagged entry with pseudo-status 0, and the
batch returns zero documents without an error. -/
theorem run_error_containment_witness :
    (fetch_one {}
        { fetchHttp := fun _ => .error "ConnectTimeout",
          fetchBrowser := fun _ => .error "RuntimeError",
          clean := fun _ => ("", ""), convert := fun _ => "" }
        ⟨id, 1800⟩ (fun _ => none) "https://example.com/" 0 =
      (none, NegativeCacheStore.put ⟨id, 1800⟩
        ((NegativeCacheStore.get ⟨id, 1800⟩ (fun _ => none) "https://example.com/" 0).2)
        "https://example.com/" 0 ("exception:" ++ "ConnectTimeout") 0)) ∧
    (run {}
        { fetchHttp := fun _ => .error "ConnectTimeout",
          fetchBrowser := fun _ => .error "RuntimeError",
          clean := fun _ => ("", ""), convert := fun _ => "" }
        ⟨id, 1800⟩ [⟨1, "t", "https://example.com", none⟩] (fun _ => none) 0 =
      .ok ((runGather {}
          { fetchHttp := fun _ => .error "ConnectTimeout",
            fetchBrowser := fun _ => .error "RuntimeError",
            clean := fun _ => ("", ""), convert := fun _ => "" }
          ⟨id, 1800⟩ 0 ["https://example.com/"] (fun _ => none)).1.reduceOption,
        (runGather {}
          { fetchHttp := fun _ => .error "ConnectTimeout",
            fetchBrowser := fun _ => .error "RuntimeError",
            clean := fun _ => ("", ""), convert := fun _ => "" }
          ⟨id, 1800⟩ 0 ["https://example.com/"] (fun _ => none)).2)) :=
  ⟨(run_error_containment {} _ ⟨id, 1800⟩ (fun _ => none) 0).1 "https://example.com/"
      "ConnectTimeout" rfl rfl,
    (run_error_containment {} _ ⟨id, 1800⟩ (fun _ => none) 0).2.1 rfl
      [⟨1, "t", "https://example.com", none⟩] ["https://example.com/"] rfl⟩

/-- `dedupeAux` keeps a sublist of its input. -/
lemma dedupeAux_sublist (seen : List String) (l : List String) :
    List.Sublist (dedupeAux seen l) l := by
  induction l generalizing seen with
  | nil => simp [dedupeAux]
  | cons u rest ih =>
    unfold dedupeAux
    by_cases hu : u ∈ seen
    · simp only [if_pos hu]
      exact (ih seen).trans (List.sublist_cons_self u rest)
    · simp only [if_neg hu]
      exact (ih (u :: seen)).cons₂ u

/-- Membership in `dedupeAux`: present in the input and not yet seen. -/
lemma mem_dedupeAux (a : String) (l seen : List String) :
    a ∈ dedupeAux seen l ↔ a ∈ l ∧ a ∉ seen := by
  induction l generalizing seen with
  | nil => simp [dedupeAux]
  | cons u rest ih =>
    unfold dedupeAux
    by_cases hu : u ∈ seen
    · simp only [if_pos hu, ih, List.mem_cons]
      constructor
      · rintro ⟨h1, h2⟩; exact ⟨Or.inr h1, h2⟩
      · rintro ⟨h1 | h1, h2⟩
        · exact absurd (h1 ▸ hu) h2
        · exact ⟨h1, h2⟩
    · simp only [if_neg hu, List.mem_cons, ih, List.mem_cons]
      constructor
      · rintro (rfl | ⟨h1, h2⟩)
        · exact ⟨Or.inl rfl, hu⟩
        · exact ⟨Or.inr h1, fun hs => h2 (Or.inr hs)⟩
      · rintro ⟨rfl | h1, h2⟩
        · exact Or.inl rfl
        · by_cases hau : a = u
          · exact Or.inl hau
          · exact Or.inr ⟨h1, fun hs => hs.elim hau h2⟩

/-- `dedupeAux` has no duplicates. -/
lemma dedupeAux_nodup (l : List String) (seen : List String) :
    (dedupeAux seen l).Nodup := by
  induction l generalizing seen with
  | nil => simp [dedupeAux]
  | cons u rest ih =>
    unfold dedupeAux
    by_cases hu : u ∈ seen
    · simpa [hu] using ih seen
    · simp only [if_neg hu, List.nodup_cons]
      refine ⟨fun hmem => ?_, ih (u :: seen)⟩
      exact ((mem_dedupeAux u rest (u :: seen)).1 hmem).2 (List.mem_cons_self u seen)

/-- **C8.** `dedupe_urls` returns a duplicate-free list preserving
first-occurrence order (a sublist of the input with the same members,
so the first occurrence survives and later equal elements are
collapsed); on the spec's example the two URLs normalize identically
and dedupe-after-normalize yields exactly one candidate; and the
query-level driver's candidate list is always duplicate-free, so the
per-URL pipeline runs at most once per normalization-equivalence
class. -/
theorem dedupe_after_normalize (urls : List String) :
    (dedupe_urls urls).Nodup ∧
    List.Sublist (dedupe_urls urls) urls ∧
    (∀ a, a ∈ dedupe_urls urls ↔ a ∈ urls) ∧
    candidateUrls
      [⟨1, "a", "https://example.com/x?utm_source=1", none⟩,
       ⟨2, "b", "https://example.com/x", none⟩] = .ok ["https://example.com/x"] ∧
    (∀ results us, candidateUrls results = .ok us → us.Nodup) := by
  refine ⟨dedupeAux_nodup urls [], dedupeAux_sublist [] urls, ?_, by rfl, ?_⟩
  · intro a
    simpa using mem_dedupeAux a urls []
  · intro results us hcand
    unfold candidateUrls at hcand
    cases hn : normalizeAll (results.map (·.url)) with
    | error e => rw [hn] at hcand; cases hcand
    | ok l =>
      rw [hn] at hcand
      cases hcand
      exact dedupeAux_nodup _ []

/-- Witness for C8's conditional part at the concrete example. -/
theorem dedupe_after_normalize_witness :
    (["https://example.com/x"] : List String).Nodup :=
  (dedupe_after_normalize []).2.2.2.2
    [⟨1, "a", "https://example.com/x?utm_source=1", none⟩,
     ⟨2, "b", "https://example.com/x", none⟩]
    ["https://example.com/x"] (by rfl)

/-- **C10.** A URL with a scheme and a netloc but an empty path has its
path rewritten to `/` by normalization (the reassembled URL uses path
`/`); in particular `normalize("https://example.com") =
"https://example.com/"`, which is already normal, so
`"https://example.com"` and `"https://example.com/"` normalize
identically and fall in the same deduplication equivalence class. -/
theorem normalize_rewrites_empty_path (u : List Char) (sp : SplitResult)
    (hsplit : pyUrlsplit (pyStrip u) = .ok sp)
    (hs : pyLower sp.scheme ≠ []) (hn : sp.netloc ≠ []) (hp : sp.path = [])
    (v : List Char) (hv : normalize_url u = .ok v) :
    (∃ nl q, v = pyUrlunsplit (pyLower sp.scheme) nl ['/'] q []) ∧
    normalize_url_str "https://example.com" = .ok "https://example.com/" ∧
    normalize_url_str "https://example.com/" = .ok "https://example.com/" := by
  refine ⟨?_, by rfl, by rfl⟩
  unfold normalize_url at hv
  simp only [hsplit] at hv
  rw [if_neg (by simp [hs, hn])] at hv
  cases hport : portOf sp.netloc with
  | error e => rw [hport] at hv; cases hv
  | ok port =>
    rw [hport] at hv
    simp only [hp, if_pos] at hv
    injection hv with hv'
    exact ⟨_, _, hv'.symm⟩

/-- Witness for C10 at `"https://example.com"`. -/
theorem normalize_rewrites_empty_path_witness :
    (∃ nl q, "https://example.com/".data =
      pyUrlunsplit (pyLower "https".data) nl ['/'] q []) ∧
    normalize_url_str "https://example.com" = .ok "https://example.com/" ∧
    normalize_url_str "https://example.com/" = .ok "https://example.com/" := by
  have h := normalize_rewrites_empty_path "https://example.com".data
    ⟨"https".data, "example.com".data, [], [], []⟩ (by rfl)
    (by decide) (by decide) (by rfl) "https://example.com/".data (by rfl)
  exact h

/-- **C3.** `validate_url_safe` fails when the scheme is not allowed,
the host is missing, the host is a `localhost` name, or the host is an
IPv4/IPv6 literal — and in those cases the outcome is independent of the
resolver (no DNS resolution is consulted); for every other URL it
succeeds exactly when the resolver returns at least one address and no
resolved address is blocked by `ip_is_blocked` under the policy flags
(loopback/private/link-local/multicast/reserved per the flags, plus
unspecified). -/
theorem validate_url_safe_characterization (url : String) (policy : UrlSafetyPolicy)
    (u : SplitResult) (hsplit : pyUrlsplit url.data = .ok u) :
    (((⟨pyLower u.scheme⟩ : String) ∉ policy.allowed_schemes ∨
        (hostnameOf u.netloc).getD [] = [] ∨
        is_localhost ((hostnameOf u.netloc).getD []) ∨
        is_ip_literal ((hostnameOf u.netloc).getD [])) →
      ((∀ r₁ r₂, validate_url_safe url policy r₁ = validate_url_safe url policy r₂) ∧
        ∀ r, ∃ msg, validate_url_safe url policy r = .error (.urlSafety msg))) ∧
    ((⟨pyLower u.scheme⟩ : String) ∈ policy.allowed_schemes →
      (hostnameOf u.netloc).getD [] ≠ [] →
      ¬ is_localhost ((hostnameOf u.netloc).getD []) →
      ¬ is_ip_literal ((hostnameOf u.netloc).getD []) →
      ∀ r, validate_url_safe url policy r = .ok () ↔
        (r ⟨(hostnameOf u.netloc).getD []⟩ ≠ [] ∧
          ∀ ip ∈ r ⟨(hostnameOf u.netloc).getD []⟩, ¬ ip_is_blocked ip policy)) := by
  constructor
  · intro hbad
    by_cases hsch : (⟨pyLower u.scheme⟩ : String) ∈ policy.allowed_schemes
    · by_cases hhost : (hostnameOf u.netloc).getD [] = []
      · exact ⟨fun r₁ r₂ => by simp [validate_url_safe, hsplit, hsch, hhost],
          fun r => ⟨"missing host", by simp [validate_url_safe, hsplit, hsch, hhost]⟩⟩
      · by_cases hloc : is_localhost ((hostnameOf u.netloc).getD [])
        · exact ⟨fun r₁ r₂ => by simp [validate_url_safe, hsplit, hsch, hhost, hloc],
            fun r => ⟨"localhost is blocked",
              by simp [validate_url_safe, hsplit, hsch, hhost, hloc]⟩⟩
        · have hip : is_ip_literal ((hostnameOf u.netloc).getD []) := by
            rcases hbad with h | h | h | h
            · exact absurd hsch h
            · exact absurd h hhost
            · exact absurd h hloc
            · exact h
          exact ⟨fun r₁ r₂ => by simp [validate_url_safe, hsplit, hsch, hhost, hloc, hip],
            fun r => ⟨"IP literal is blocked",
              by simp [validate_url_safe, hsplit, hsch, hhost, hloc, hip]⟩⟩
    · exact ⟨fun r₁ r₂ => by simp [validate_url_safe, hsplit, hsch],
        fun r => ⟨"scheme not allowed", by simp [validate_url_safe, hsplit, hsch]⟩⟩
  · intro hsch hhost hloc hip r
    constructor
    · intro hok
      refine ⟨?_, ?_⟩
      · intro hres
        simp [validate_url_safe, hsplit, hsch, hhost, hloc, hip, hres] at hok
      · intro ip hmem hb
        have hblk : ∃ x ∈ r ⟨(hostnameOf u.netloc).getD []⟩, ip_is_blocked x policy :=
          ⟨ip, hmem, hb⟩
        by_cases hres : r ⟨(hostnameOf u.netloc).getD []⟩ = []
        · simp [validate_url_safe, hsplit, hsch, hhost, hloc, hip, hres] at hok
        · simp [validate_url_safe, hsplit, hsch, hhost, hloc, hip, hres, hblk] at hok
    · rintro ⟨hres, hall⟩
      have hblk : ¬ ∃ x ∈ r ⟨(hostnameOf u.netloc).getD []⟩, ip_is_blocked x policy := by
        rintro ⟨x, hx, hbx⟩
        exact hall x hx hbx
      simp [validate_url_safe, hsplit, hsch, hhost, hloc, hip, hres, hblk]

/-- Witness for C3: `http://localhost:8000/x` is rejected identically
under two resolvers that disagree everywhere (so no resolution is
consulted), with a `UrlSafetyError`. -/
theorem validate_url_safe_characterization_witness :
    (validate_url_safe "http://localhost:8000/x" {} (fun _ => []) =
      validate_url_safe "http://localhost:8000/x" {} (fun _ => [{ is_loopback := true }])) ∧
    (∃ msg, validate_url_safe "http://localhost:8000/x" {} (fun _ => []) =
      .error (.urlSafety msg)) := by
  have h := (validate_url_safe_characterization "http://localhost:8000/x" {}
    ⟨"http".data, "localhost:8000".data, "/x".data, [], []⟩ rfl).1
    (Or.inr (Or.inr (Or.inl (by decide))))
  exact ⟨h.1 (fun _ => []) (fun _ => [{ is_loopback := true }]), h.2 (fun _ => [])⟩

/-- Global-slot count across concatenation. -/
lemma heldGlobal_append (a b : LimState) :
    heldGlobal (a ++ b) = heldGlobal a + heldGlobal b := by
  simp [heldGlobal, List.filter_append]

/-- Global-slot count of a single task cell. -/
lemma heldGlobal_cons (t : String × LimPhase) (s : LimState) :
    heldGlobal (t :: s) = (if holdsGlobal t.2 then 1 else 0) + heldGlobal s := by
  by_cases h : holdsGlobal t.2 <;> simp [heldGlobal, List.filter_cons, h] <;> omega

/-- Host-slot count across concatenation. -/
lemma heldHost_append (a b : LimState) (h : String) :
    heldHost (a ++ b) h = heldHost a h + heldHost b h := by
  simp [heldHost, List.filter_append]

/-- Host-slot count of a single task cell. -/
lemma heldHost_cons (t : String × LimPhase) (s : LimState) (h : String) :
    heldHost (t :: s) h =
      (if hostKeyOf t.1 = h ∧ t.2 = LimPhase.gotBoth then 1 else 0) + heldHost s h := by
  by_cases h1 : hostKeyOf t.1 = h ∧ t.2 = LimPhase.gotBoth
  · simp [heldHost, List.filter_cons, h1]
    omega
  · have h2 : ¬ (hostKeyOf t.1 = h && t.2 = LimPhase.gotBoth) = true := by
      simpa [Bool.and_eq_true, decide_eq_true_eq] using h1
    simp [heldHost, List.filter_cons, h2, h1]

/-- **C9.** The limiter's acquire/release discipline: in every reachable
state at most `global_concurrency` global slots and, for every host, at
most `per_domain_concurrency` host slots are held (acquisition steps are
guarded, matching blocking semaphore acquires; the step relation encodes
acquire as global-then-host and release as host-then-global); a task that
has completed the acquire/release pair (`idle` → `done`) contributes
nothing, so the pair leaves both counters at their prior values; with
per-host capacity 1 two tasks can never hold the host slot of one host
simultaneously (the second acquire waits for the first release); and an
acquire for a host below its ceiling is always enabled, so distinct
hosts are limited only by the global ceiling. -/
theorem limiter_discipline (cfg : ConcurrencyConfig) (s : LimState)
    (hreach : LimReachable cfg s) :
    (heldGlobal s ≤ cfg.global_concurrency ∧
      ∀ h, heldHost s h ≤ cfg.per_domain_concurrency) ∧
    (∀ pre post url,
      heldGlobal (pre ++ (url, .done) :: post) = heldGlobal (pre ++ (url, .idle) :: post) ∧
      ∀ h, heldHost (pre ++ (url, .done) :: post) h =
        heldHost (pre ++ (url, .idle) :: post) h) ∧
    (cfg.per_domain_concurrency = 1 → ∀ pre mid post u u',
      s = pre ++ (u, .gotBoth) :: (mid ++ (u', .gotBoth) :: post) →
      hostKeyOf u ≠ hostKeyOf u') ∧
    (∀ pre post url, s = pre ++ (url, .gotGlobal) :: post → hostKeyOf url ≠ "" →
      heldHost s (hostKeyOf url) < cfg.per_domain_concurrency →
      LimStep cfg s (pre ++ (url, .gotBoth) :: post)) := by
  have hinv : heldGlobal s ≤ cfg.global_concurrency ∧
      ∀ h, heldHost s h ≤ cfg.per_domain_concurrency := by
    induction hreach with
    | refl => simp [heldGlobal, heldHost]
    | tail _ hstep ih =>
      obtain ⟨ihg, ihh⟩ := ih
      cases hstep with
      | spawn s0 url =>
        constructor
        · simpa [heldGlobal_append, heldGlobal_cons, holdsGlobal] using ihg
        · intro h
          simpa [heldHost_append, heldHost_cons] using ihh h
      | acqGlobal pre post url hlt =>
        constructor
        · simp only [heldGlobal_append, heldGlobal_cons, holdsGlobal] at hlt ⊢
          simp at hlt ⊢
          omega
        · intro h
          have h2 := ihh h
          simp only [heldHost_append, heldHost_cons] at h2 ⊢
          simp at h2 ⊢
          omega
      | acqHost pre post url hne hlt =>
        constructor
        · have h2 := ihg
          simp only [heldGlobal_append, heldGlobal_cons, holdsGlobal] at h2 ⊢
          simp at h2 ⊢
          omega
        · intro h
          by_cases hh : hostKeyOf url = h
        --
          · simp only [heldHost_append, heldHost_cons, hh] at hlt ⊢
            simp at hlt ⊢
            omega
          · have h2 := ihh h
            simp only [heldHost_append, heldHost_cons] at h2 ⊢
            simp [hh] at h2 ⊢
            omega
      | relHost pre post url =>
        constructor
        · have h2 := ihg
          simp only [heldGlobal_append, heldGlobal_cons, holdsGlobal] at h2 ⊢
          simp at h2 ⊢
          omega
        · intro h
          have h2 := ihh h
          by_cases hh : hostKeyOf url = h <;>
            [skip; skip] <;>
            (simp only [heldHost_append, heldHost_cons] at h2 ⊢; simp [hh] at h2 ⊢; omega)
      | relGlobal pre post url =>
        constructor
        · have h2 := ihg
          simp only [heldGlobal_append, heldGlobal_cons, holdsGlobal] at h2 ⊢
          simp at h2 ⊢
          omega
        · intro h
          have h2 := ihh h
          simp only [heldHost_append, heldHost_cons] at h2 ⊢
          simp at h2 ⊢
          omega
      | relGlobalHostless pre post url hne =>
        constructor
        · have h2 := ihg
          simp only [heldGlobal_append, heldGlobal_cons, holdsGlobal] at h2 ⊢
          simp at h2 ⊢
          omega
        · intro h
          have h2 := ihh h
          simp only [heldHost_append, heldHost_cons] at h2 ⊢
          simp at h2 ⊢
          omega
  refine ⟨hinv, ?_, ?_, ?_⟩
  · intro pre post url
    constructor
    · simp [heldGlobal_append, heldGlobal_cons, holdsGlobal]
    · intro h
      simp [heldHost_append, heldHost_cons]
  · intro hP pre mid post u u' hs hkey
    have hcount := hinv.2 (hostKeyOf u)
    rw [hs] at hcount
    simp only [heldHost_append, heldHost_cons] at hcount
    simp [hkey, hP] at hcount
    omega
  · intro pre post url hs hne hlt
    subst hs
    exact LimStep.acqHost pre post url hne hlt

/-- Witness for C9: a concrete reachable state — one task holding both
slots for `example.com` under capacities (2, 1) — satisfies the bounds,
and a same-host clash is impossible there. -/
theorem limiter_discipline_witness :
    heldGlobal [("https://example.com/a", LimPhase.gotBoth)] ≤ 2 ∧
    heldHost [("https://example.com/a", LimPhase.gotBoth)] "example.com" ≤ 1 := by
  have hreach : LimReachable ⟨2, 1⟩ [("https://example.com/a", LimPhase.gotBoth)] := by
    have h1 : LimStep ⟨2, 1⟩ [] ([] ++ [("https://example.com/a", LimPhase.idle)]) :=
      LimStep.spawn [] "https://example.com/a"
    have h2 : LimStep ⟨2, 1⟩ ([] ++ ("https://example.com/a", LimPhase.idle) :: [])
        ([] ++ ("https://example.com/a", LimPhase.gotGlobal) :: []) :=
      LimStep.acqGlobal [] [] "https://example.com/a" (by decide)
    have h3 : LimStep ⟨2, 1⟩ ([] ++ ("https://example.com/a", LimPhase.gotGlobal) :: [])
        ([] ++ ("https://example.com/a", LimPhase.gotBoth) :: []) :=
      LimStep.acqHost [] [] "https://example.com/a" (by decide) (by decide)
    exact Relation.ReflTransGen.tail
      (Relation.ReflTransGen.tail (Relation.ReflTransGen.single h1) h2) h3
  have h := (limiter_discipline ⟨2, 1⟩ _ hreach).1
  exact ⟨h.1, h.2 "example.com"⟩

/-- **C2.** `detect` applies its rules in order, first match winning, and
returns precisely the verdicts the specification names: `rate_limited`
(reason string `rate_limited_429`) for status 429; `auth_required` for
401/407; `blocked_or_bot_signature` (`blocked_or_bot_403_signature`) for
403 with a signature-set body match; `blocked_weak` (`blocked_403`) for
403 without one; `challenge_page_200` for 200 with a signature match; and
no verdict otherwise — in particular for status 200 with ordinary
content.  Stated as: the source `detect` (at the default configuration)
refines the verdict classifier `detectSpec` written from the spec's rule
list, and yields a verdict exactly when the spec does. -/
theorem detect_refines_spec (page : PageFetchResult) :
    (detect true page).bind verdictOfReason = detectSpec page ∧
    ((detect true page) = none ↔ detectSpec page = none) := by
  constructor
  · unfold detect detectSpec verdictOfReason
    by_cases h429 : page.status_code = 429
    · simp [h429]
    · by_cases h401 : page.status_code = 401
      · simp [h429, h401]
      · by_cases h407 : page.status_code = 407
        · simp [h429, h401, h407]
        · by_cases h403 : page.status_code = 403
          · by_cases hsig : bodyMatchesSignature page.html.data
            · simp [h429, h401, h407, h403, hsig]
            · simp [h429, h401, h407, h403, hsig]
          · by_cases h200 : page.status_code = 200
            · by_cases hsig : bodyMatchesSignature page.html.data
              · simp [h429, h401, h407, h403, h200, hsig]
              · simp [h429, h401, h407, h403, h200, hsig]
            · simp [h429, h401, h407, h403, h200]
  · unfold detect detectSpec
    by_cases h429 : page.status_code = 429
    · simp [h429]
    · by_cases h401 : page.status_code = 401
      · simp [h429, h401]
      · by_cases h407 : page.status_code = 407
        · simp [h429, h401, h407]
        · by_cases h403 : page.status_code = 403
          · by_cases hsig : bodyMatchesSignature page.html.data
            · simp [h429, h401, h407, h403, hsig]
            · simp [h429, h401, h407, h403, hsig]
          · by_cases h200 : page.status_code = 200
            · by_cases hsig : bodyMatchesSignature page.html.data
              · simp [h429, h401, h407, h403, h200, hsig]
              · simp [h429, h401, h407, h403, h200, hsig]
            · simp [h429, h401, h407, h403, h200]

/-! ### Character-level lemmas for the normalization development -/

lemma char_toNat_ofNat {n : Nat} (h : n.isValidChar) : (Char.ofNat n).toNat = n := by
  simp [Char.ofNat, h, Char.ofNatAux, Char.toNat, UInt32.toNat, BitVec.toNat_ofNatLt]

lemma char_le_iff {a b : Char} : a ≤ b ↔ a.toNat ≤ b.toNat := Iff.rfl

lemma char_eq_iff_toNat {a b : Char} : a = b ↔ a.toNat = b.toNat := by
  constructor
  · exact fun h => h ▸ rfl
  · intro h
    apply Char.ext
    apply UInt32.eq_of_toBitVec_eq
    apply BitVec.eq_of_toNat_eq
    exact h

/-- `pyLowerChar` either fixes a character or shifts an uppercase ASCII
letter down by 32. -/
lemma pyLowerChar_cases (c : Char) :
    pyLowerChar c = c ∨
      (65 ≤ c.toNat ∧ c.toNat ≤ 90 ∧ (pyLowerChar c).toNat = c.toNat + 32) := by
  unfold pyLowerChar
  by_cases h : ('A' ≤ c && c ≤ 'Z') = true
  · right
    rw [Bool.and_eq_true, decide_eq_true_eq, decide_eq_true_eq] at h
    have h1 : 65 ≤ c.toNat := char_le_iff.mp h.1
    have h2 : c.toNat ≤ 90 := char_le_iff.mp h.2
    refine ⟨h1, h2, ?_⟩
    rw [if_pos (by rw [Bool.and_eq_true, decide_eq_true_eq, decide_eq_true_eq]; exact h)]
    exact char_toNat_ofNat (Or.inl (by omega))
  · left
    rw [if_neg h]

lemma pyLowerChar_eq_self_of_not_upper {c : Char}
    (h : ¬ (65 ≤ c.toNat ∧ c.toNat ≤ 90)) : pyLowerChar c = c := by
  unfold pyLowerChar
  rw [if_neg]
  rw [Bool.and_eq_true, decide_eq_true_eq, decide_eq_true_eq]
  rintro ⟨h1, h2⟩
  exact h ⟨char_le_iff.mp h1, char_le_iff.mp h2⟩

lemma pyLowerChar_idem (c : Char) : pyLowerChar (pyLowerChar c) = pyLowerChar c := by
  rcases pyLowerChar_cases c with h | ⟨h1, h2, h3⟩
  · rw [h, h]
  · exact pyLowerChar_eq_self_of_not_upper (by omega)

lemma pyLower_idem (l : List Char) : pyLower (pyLower l) = pyLower l := by
  simp [pyLower, List.map_map, Function.comp_def, pyLowerChar_idem]

/-- A character that is neither a lowercase nor an uppercase ASCII letter
is a fixed point of lowering, and only arises from itself. -/
lemma pyLowerChar_eq_symbol {c d : Char}
    (hd1 : ¬ (97 ≤ d.toNat ∧ d.toNat ≤ 122)) (hd2 : ¬ (65 ≤ d.toNat ∧ d.toNat ≤ 90)) :
    pyLowerChar c = d ↔ c = d := by
  constructor
  · intro h
    rcases pyLowerChar_cases c with h1 | ⟨h1, h2, h3⟩
    · rw [← h1, h]
    · exfalso
      rw [h] at h3
      exact hd1 ⟨by omega, by omega⟩
  · rintro rfl
    exact pyLowerChar_eq_self_of_not_upper hd2

lemma mem_pyLower_symbol {d : Char} (l : List Char)
    (hd1 : ¬ (97 ≤ d.toNat ∧ d.toNat ≤ 122)) (hd2 : ¬ (65 ≤ d.toNat ∧ d.toNat ≤ 90)) :
    d ∈ pyLower l ↔ d ∈ l := by
  simp only [pyLower, List.mem_map]
  constructor
  · rintro ⟨c, hc, hlow⟩
    rwa [(pyLowerChar_eq_symbol hd1 hd2).mp hlow] at hc
  · intro h
    exact ⟨d, h, (pyLowerChar_eq_symbol hd1 hd2).mpr rfl⟩

/-! ### Strip lemmas -/

lemma dropWhile_head_not (p : Char → Bool) (l : List Char) (c : Char)
    (h : (l.dropWhile p).head? = some c) : ¬ p c := by
  induction l with
  | nil => simp at h
  | cons a t ih =>
    rw [List.dropWhile_cons] at h
    by_cases ha : p a
    · exact ih (by simpa [ha] using h)
    · rw [if_neg ha] at h
      simp at h
      rwa [← h]

lemma pyLStrip_eq_self {l : List Char} (h : ∀ c, l.head? = some c → ¬ isPySpace c) :
    pyLStrip l = l := by
  cases l with
  | nil => rfl
  | cons a t =>
    unfold pyLStrip
    rw [List.dropWhile_cons, if_neg (h a rfl)]

lemma pyRStrip_eq_self {l : List Char} (h : ∀ c, l.getLast? = some c → ¬ isPySpace c) :
    pyRStrip l = l := by
  unfold pyRStrip
  have : l.reverse.dropWhile isPySpace = l.reverse := by
    cases hl : l.reverse with
    | nil => rfl
    | cons a t =>
      have ha : l.getLast? = some a := by
        rw [← List.head?_reverse, hl]
        rfl
      rw [List.dropWhile_cons, if_neg (h a ha)]
  rw [this, List.reverse_reverse]

lemma pyStrip_eq_self {l : List Char}
    (h1 : ∀ c, l.head? = some c → ¬ isPySpace c)
    (h2 : ∀ c, l.getLast? = some c → ¬ isPySpace c) : pyStrip l = l := by
  unfold pyStrip
  rw [pyLStrip_eq_self h1, pyRStrip_eq_self h2]

lemma pyRStrip_head? {x : List Char} {c : Char} (h : (pyRStrip x).head? = some c) :
    x.head? = some c := by
  have hsuf : x.reverse.dropWhile isPySpace <:+ x.reverse := List.dropWhile_suffix _
  obtain ⟨t, ht⟩ := hsuf
  have hx : x = pyRStrip x ++ t.reverse := by
    unfold pyRStrip
    rw [← List.reverse_append, ht, List.reverse_reverse]
  rw [hx, List.head?_append, h]
  rfl

lemma getLast?_pyRStrip {x : List Char} {c : Char} (h : (pyRStrip x).getLast? = some c) :
    ¬ isPySpace c := by
  unfold pyRStrip at h
  rw [List.getLast?_reverse] at h
  exact dropWhile_head_not _ _ _ h

lemma head?_pyLStrip {l : List Char} {c : Char} (h : (pyLStrip l).head? = some c) :
    ¬ isPySpace c :=
  dropWhile_head_not _ _ _ h

lemma pyStrip_idem (l : List Char) : pyStrip (pyStrip l) = pyStrip l := by
  apply pyStrip_eq_self
  · intro c hc
    exact head?_pyLStrip (pyRStrip_head? hc)
  · intro c hc
    exact getLast?_pyRStrip hc

/-! ### Decimal printing round trip -/

lemma natToDecAux_congr : ∀ (n f f' : Nat), n < f → n < f' →
    natToDecAux f n = natToDecAux f' n := by
  intro n
  induction n using Nat.strong_induction_on with
  | _ n ih =>
    intro f f' hf hf'
    match f, f' with
    | f + 1, f' + 1 =>
      simp only [natToDecAux]
      by_cases h : n < 10
      · simp [h]
      · have hd : n / 10 < n := Nat.div_lt_self (by omega) (by omega)
        simp only [if_neg h]
        rw [ih (n / 10) hd f f' (by omega) (by omega)]

lemma natToDec_unfold (n : Nat) :
    natToDec n = if n < 10 then [Char.ofNat (48 + n)]
      else natToDec (n / 10) ++ [Char.ofNat (48 + n % 10)] := by
  by_cases h : n < 10
  · simp [natToDec, natToDecAux, h]
  · have h1 : natToDecAux (n + 1) n = natToDecAux n (n / 10) ++ [Char.ofNat (48 + n % 10)] := by
      conv_lhs => rw [natToDecAux]
      rw [if_neg h]
    unfold natToDec
    rw [if_neg h, h1, natToDecAux_congr (n / 10) n (n / 10 + 1)
      (Nat.div_lt_self (by omega) (by omega)) (by omega)]

lemma digit_char_isAsciiDigit {k : Nat} (h : k < 10) :
    isAsciiDigit (Char.ofNat (48 + k)) := by
  have hv : (48 + k).isValidChar := Or.inl (by omega)
  have h0 : '0'.toNat = 48 := rfl
  have h9 : '9'.toNat = 57 := rfl
  unfold isAsciiDigit
  rw [Bool.and_eq_true, decide_eq_true_eq, decide_eq_true_eq, char_le_iff, char_le_iff,
    char_toNat_ofNat hv, h0, h9]
  omega

lemma natToDec_digits (n : Nat) : ∀ c ∈ natToDec n, isAsciiDigit c := by
  induction n using Nat.strong_induction_on with
  | _ n ih =>
    rw [natToDec_unfold]
    by_cases h : n < 10
    · simp only [if_pos h, List.mem_singleton]
      rintro c rfl
      exact digit_char_isAsciiDigit h
    · have hd : n / 10 < n := Nat.div_lt_self (by omega) (by omega)
      simp only [if_neg h]
      intro c hc
      rcases List.mem_append.mp hc with hc | hc
      · exact ih (n / 10) hd c hc
      · rw [List.mem_singleton] at hc
        subst hc
        exact digit_char_isAsciiDigit (Nat.mod_lt _ (by omega))

lemma natToDec_ne_nil (n : Nat) : natToDec n ≠ [] := by
  rw [natToDec_unfold]
  by_cases h : n < 10 <;> simp [h]

lemma decToNat_append_digit (a : List Char) (c : Char) :
    decToNat (a ++ [c]) = decToNat a * 10 + (c.toNat - 48) := by
  simp [decToNat, List.foldl_append]

lemma decToNat_natToDec (n : Nat) : decToNat (natToDec n) = n := by
  induction n using Nat.strong_induction_on with
  | _ n ih =>
    rw [natToDec_unfold]
    by_cases h : n < 10
    · simp only [if_pos h]
      have hv : (48 + n).isValidChar := Or.inl (by omega)
      simp [decToNat, char_toNat_ofNat hv]
    · have hd : n / 10 < n := Nat.div_lt_self (by omega) (by omega)
      have hv : (48 + n % 10).isValidChar := Or.inl (by omega)
      simp only [if_neg h]
      rw [decToNat_append_digit, ih (n / 10) hd, char_toNat_ofNat hv]
      omega

/-! ### UTF-8 round trip -/

lemma utf8DecAux_congr : ∀ (f : Nat) (l : List Nat) (f' : Nat),
    l.length ≤ f → l.length ≤ f' → utf8DecAux f l = utf8DecAux f' l := by
  intro f
  induction f with
  | zero =>
    intro l f' hf _
    have : l = [] := List.length_eq_zero.mp (by omega)
    subst this
    cases f' <;> rfl
  | succ f0 ih =>
    intro l f' hf hf'
    cases l with
    | nil => cases f' <;> rfl
    | cons b rest =>
      match f', hf' with
      | f1 + 1, hf' =>
        simp only [utf8DecAux]
        have hr : rest.length ≤ f0 := by simpa using hf
        have hr1 : rest.length ≤ f1 := by simpa using hf'
        have e1 : utf8DecAux f0 rest = utf8DecAux f1 rest := ih rest f1 hr hr1
        have e2 : utf8DecAux f0 (rest.drop 1) = utf8DecAux f1 (rest.drop 1) :=
          ih _ f1 (by simp; omega) (by simp; omega)
        have e3 : utf8DecAux f0 (rest.drop 2) = utf8DecAux f1 (rest.drop 2) :=
          ih _ f1 (by simp; omega) (by simp; omega)
        have e4 : utf8DecAux f0 (rest.drop 3) = utf8DecAux f1 (rest.drop 3) :=
          ih _ f1 (by simp; omega) (by simp; omega)
        rw [e1, e2, e3, e4]

lemma utf8DecodeReplace_cons_ascii (b : Nat) (rest : List Nat) (h : b < 0x80) :
    utf8DecodeReplace (b :: rest) = Char.ofNat b :: utf8DecodeReplace rest := by
  unfold utf8DecodeReplace
  simp only [List.length_cons, utf8DecAux, if_pos h]

lemma utf8DecodeReplace_two (b b2 : Nat) (rest : List Nat)
    (h1 : 0xC2 ≤ b) (h2 : b ≤ 0xDF) (h3 : isContByte b2) :
    utf8DecodeReplace (b :: b2 :: rest) =
      Char.ofNat ((b - 0xC0) * 64 + (b2 - 0x80)) :: utf8DecodeReplace rest := by
  unfold utf8DecodeReplace
  have h0 : ¬ b < 0x80 := by omega
  have hb : (0xC2 ≤ b && b ≤ 0xDF) = true := by simp; omega
  simp only [List.length_cons, utf8DecAux, if_neg h0, hb, if_true, List.headD_cons,
    List.drop_succ_cons, List.drop_zero, if_pos]
  rw [if_pos (show (decide (1 ≤ rest.length + 1) && isContByte b2) = true by simp [h3]),
    utf8DecAux_congr (rest.length + 1) rest rest.length (by omega) le_rfl]

lemma utf8DecodeReplace_three (b b2 b3 : Nat) (rest : List Nat)
    (h1 : 0xE0 ≤ b) (h2 : b ≤ 0xEF) (h3 : isContByte b2) (h4 : isContByte b3)
    (h5 : b = 0xE0 → 0xA0 ≤ b2) (h6 : b = 0xED → b2 ≤ 0x9F) :
    utf8DecodeReplace (b :: b2 :: b3 :: rest) =
      Char.ofNat ((b - 0xE0) * 4096 + (b2 - 0x80) * 64 + (b3 - 0x80))
        :: utf8DecodeReplace rest := by
  unfold utf8DecodeReplace
  have h0 : ¬ b < 0x80 := by omega
  have hn2 : ¬ ((0xC2 ≤ b && b ≤ 0xDF) = true) := by simp; omega
  have hb : (0xE0 ≤ b && b ≤ 0xEF) = true := by simp; omega
  have hg : (decide (2 ≤ rest.length + 1 + 1) && isContByte b2 && isContByte b3
      && (!decide (b = 0xE0) || decide (0xA0 ≤ b2))
      && (!decide (b = 0xED) || decide (b2 ≤ 0x9F))) = true := by
    simp [h3, h4]
    constructor
    · by_cases hbe : b = 0xE0
      · exact Or.inr (h5 hbe)
      · exact Or.inl hbe
    · by_cases hbe : b = 0xED
      · exact Or.inr (h6 hbe)
      · exact Or.inl hbe
  simp only [List.length_cons, utf8DecAux, if_neg h0, if_neg hn2, hb, if_true,
    List.headD_cons, List.getD_cons_succ, List.getD_cons_zero,
    List.drop_succ_cons, List.drop_zero]
  rw [if_pos hg, utf8DecAux_congr (rest.length + 1 + 1) rest rest.length (by omega) le_rfl]

lemma utf8DecodeReplace_four (b b2 b3 b4 : Nat) (rest : List Nat)
    (h1 : 0xF0 ≤ b) (h2 : b ≤ 0xF4) (h3 : isContByte b2) (h4 : isContByte b3)
    (h4' : isContByte b4)
    (h5 : b = 0xF0 → 0x90 ≤ b2) (h6 : b = 0xF4 → b2 ≤ 0x8F) :
    utf8DecodeReplace (b :: b2 :: b3 :: b4 :: rest) =
      Char.ofNat ((b - 0xF0) * 262144 + (b2 - 0x80) * 4096 + (b3 - 0x80) * 64 + (b4 - 0x80))
        :: utf8DecodeReplace rest := by
  unfold utf8DecodeReplace
  have h0 : ¬ b < 0x80 := by omega
  have hn2 : ¬ ((0xC2 ≤ b && b ≤ 0xDF) = true) := by simp; omega
  have hn3 : ¬ ((0xE0 ≤ b && b ≤ 0xEF) = true) := by simp; omega
  have hb : (0xF0 ≤ b && b ≤ 0xF4) = true := by simp; omega
  have hg : (decide (3 ≤ rest.length + 1 + 1 + 1) && isContByte b2 && isContByte b3
      && isContByte b4
      && (!decide (b = 0xF0) || decide (0x90 ≤ b2))
      && (!decide (b = 0xF4) || decide (b2 ≤ 0x8F))) = true := by
    simp [h3, h4, h4']
    constructor
    · by_cases hbe : b = 0xF0
      · exact Or.inr (h5 hbe)
      · exact Or.inl hbe
    · by_cases hbe : b = 0xF4
      · exact Or.inr (h6 hbe)
      · exact Or.inl hbe
  simp only [List.length_cons, utf8DecAux, if_neg h0, if_neg hn2, if_neg hn3, hb, if_true,
    List.headD_cons, List.getD_cons_succ, List.getD_cons_zero,
    List.drop_succ_cons, List.drop_zero]
  rw [if_pos hg, utf8DecAux_congr (rest.length + 1 + 1 + 1) rest rest.length (by omega) le_rfl]

/-- Decoding undoes encoding, one scalar at a time. -/
lemma utf8DecodeReplace_encodeChar (c : Char) (rest : List Nat) :
    utf8DecodeReplace (utf8EncodeChar c ++ rest) = c :: utf8DecodeReplace rest := by
  have hval : c.toNat < 0xd800 ∨ (0xdfff < c.toNat ∧ c.toNat < 0x110000) := c.valid
  unfold utf8EncodeChar
  by_cases ha : c.toNat < 0x80
  · simp only [if_pos ha, List.cons_append, List.nil_append]
    rw [utf8DecodeReplace_cons_ascii _ _ ha, Char.ofNat_toNat]
  · by_cases hb : c.toNat < 0x800
    · simp only [if_neg ha, if_pos hb, List.cons_append, List.nil_append]
      rw [utf8DecodeReplace_two _ _ _ (by omega) (by omega)
        (by simp [isContByte]; omega)]
      congr 1
      have harith : (0xC0 + c.toNat / 64 - 0xC0) * 64 + (0x80 + c.toNat % 64 - 0x80)
          = c.toNat := by omega
      rw [harith, Char.ofNat_toNat]
    · by_cases hc : c.toNat < 0x10000
      · simp only [if_neg ha, if_neg hb, if_pos hc, List.cons_append, List.nil_append]
        rw [utf8DecodeReplace_three _ _ _ _ (by omega) (by omega)
          (by simp [isContByte]; omega) (by simp [isContByte]; omega)
          (by intro he; omega) (by intro he; omega)]
        congr 1
        have harith : (0xE0 + c.toNat / 4096 - 0xE0) * 4096
            + (0x80 + c.toNat / 64 % 64 - 0x80) * 64 + (0x80 + c.toNat % 64 - 0x80)
            = c.toNat := by omega
        rw [harith, Char.ofNat_toNat]
      · simp only [if_neg ha, if_neg hb, if_neg hc, List.cons_append, List.nil_append]
        rw [utf8DecodeReplace_four _ _ _ _ _ (by omega)
          (by have : c.toNat < 0x110000 := by omega
              omega)
          (by simp [isContByte]; omega) (by simp [isContByte]; omega)
          (by simp [isContByte]; omega)
          (by intro he; omega)
          (by intro he
              have : c.toNat < 0x110000 := by omega
              omega)]
        congr 1
        have harith : (0xF0 + c.toNat / 262144 - 0xF0) * 262144
            + (0x80 + c.toNat / 4096 % 64 - 0x80) * 4096
            + (0x80 + c.toNat / 64 % 64 - 0x80) * 64 + (0x80 + c.toNat % 64 - 0x80)
            = c.toNat := by omega
        rw [harith, Char.ofNat_toNat]

/-- `bytes.decode('utf-8') ∘ str.encode('utf-8') = id`. -/
lemma utf8DecodeReplace_encode (l : List Char) :
    utf8DecodeReplace (utf8Encode l) = l := by
  induction l with
  | nil => rfl
  | cons c t ih =>
    have h : utf8Encode (c :: t) = utf8EncodeChar c ++ utf8Encode t := by
      simp [utf8Encode]
    rw [h, utf8DecodeReplace_encodeChar, ih]

/-- Encoded bytes are real bytes. -/
lemma utf8EncodeChar_lt_256 (c : Char) : ∀ b ∈ utf8EncodeChar c, b < 256 := by
  have hval : c.toNat < 0xd800 ∨ (0xdfff < c.toNat ∧ c.toNat < 0x110000) := c.valid
  unfold utf8EncodeChar
  by_cases ha : c.toNat < 0x80
  · simp only [if_pos ha]
    intro b hb
    simp at hb
    omega
  · by_cases hb2 : c.toNat < 0x800
    · simp only [if_neg ha, if_pos hb2]
      intro b hb
      simp at hb
      rcases hb with rfl | rfl <;> omega
    · by_cases hc : c.toNat < 0x10000
      · simp only [if_neg ha, if_neg hb2, if_pos hc]
        intro b hb
        simp at hb
        rcases hb with rfl | rfl | rfl <;> omega
      · simp only [if_neg ha, if_neg hb2, if_neg hc]
        intro b hb
        simp at hb
        have : c.toNat < 0x110000 := by omega
        rcases hb with rfl | rfl | rfl | rfl <;> omega

lemma utf8Encode_lt_256 (l : List Char) : ∀ b ∈ utf8Encode l, b < 256 := by
  induction l with
  | nil => intro b hb; simp [utf8Encode] at hb
  | cons c t ih =>
    intro b hb
    have h : utf8Encode (c :: t) = utf8EncodeChar c ++ utf8Encode t := by
      simp [utf8Encode]
    rw [h, List.mem_append] at hb
    rcases hb with hb | hb
    · exact utf8EncodeChar_lt_256 c b hb
    · exact ih b hb

/-! ### Percent-quoting round trip -/

lemma pyUnquoteAux_nil (buf : List Nat) : pyUnquoteAux [] buf = utf8DecodeReplace buf.reverse := rfl

lemma pyUnquoteAux_ascii (c : Char) (rest : List Char) (buf : List Nat)
    (h : c ≠ '%') (h2 : c.toNat < 0x80) :
    pyUnquoteAux (c :: rest) buf = pyUnquoteAux rest (c.toNat :: buf) := by
  rw [pyUnquoteAux]
  · rw [if_pos h2]
  all_goals (intros; simp_all)

lemma pyUnquoteAux_pct (a b : Char) (rest : List Char) (buf : List Nat)
    (ha : isAsciiHexDigit a) (hb : isAsciiHexDigit b) :
    pyUnquoteAux ('%' :: a :: b :: rest) buf =
      pyUnquoteAux rest ((hexDigitVal a * 16 + hexDigitVal b) :: buf) := by
  rw [pyUnquoteAux, if_pos (by simp [ha, hb])]

lemma isAsciiDigit_iff (c : Char) : isAsciiDigit c = true ↔ 48 ≤ c.toNat ∧ c.toNat ≤ 57 := by
  have h0 : ('0' : Char).toNat = 48 := rfl
  have h9 : ('9' : Char).toNat = 57 := rfl
  unfold isAsciiDigit
  rw [Bool.and_eq_true, decide_eq_true_eq, decide_eq_true_eq, char_le_iff, char_le_iff, h0, h9]

lemma isAsciiHexDigit_iff (c : Char) : isAsciiHexDigit c = true ↔
    (48 ≤ c.toNat ∧ c.toNat ≤ 57) ∨ (97 ≤ c.toNat ∧ c.toNat ≤ 102)
      ∨ (65 ≤ c.toNat ∧ c.toNat ≤ 70) := by
  have hd : ('a' : Char).toNat = 97 ∧ ('f' : Char).toNat = 102 ∧
      ('A' : Char).toNat = 65 ∧ ('F' : Char).toNat = 70 := ⟨rfl, rfl, rfl, rfl⟩
  unfold isAsciiHexDigit
  rw [Bool.or_eq_true, Bool.or_eq_true, isAsciiDigit_iff, Bool.and_eq_true, Bool.and_eq_true]
  simp only [decide_eq_true_eq, char_le_iff, hd.1, hd.2.1, hd.2.2.1, hd.2.2.2]
  tauto

lemma isAlwaysSafeByte_iff (b : Nat) : isAlwaysSafeByte b = true ↔
    (48 ≤ b ∧ b ≤ 57) ∨ (65 ≤ b ∧ b ≤ 90) ∨ (97 ≤ b ∧ b ≤ 122)
      ∨ b = 95 ∨ b = 46 ∨ b = 45 ∨ b = 126 := by
  unfold isAlwaysSafeByte
  simp only [Bool.or_eq_true, Bool.and_eq_true, decide_eq_true_eq]
  tauto

lemma hexDigitUpper_spec {n : Nat} (h : n < 16) :
    isAsciiHexDigit (hexDigitUpper n) = true ∧ hexDigitVal (hexDigitUpper n) = n ∧
      isAlwaysSafeByte (hexDigitUpper n).toNat = true ∧ (hexDigitUpper n).toNat < 0x80 := by
  unfold hexDigitUpper
  by_cases h10 : n < 10
  · rw [if_pos h10]
    have ht : (Char.ofNat (48 + n)).toNat = 48 + n := char_toNat_ofNat (Or.inl (by omega))
    refine ⟨?_, ?_, ?_, ?_⟩
    · rw [isAsciiHexDigit_iff, ht]; left; omega
    · unfold hexDigitVal
      rw [if_pos ((isAsciiDigit_iff _).mpr (by rw [ht]; omega)), ht]
      omega
    · rw [isAlwaysSafeByte_iff, ht]; left; omega
    · rw [ht]; omega
  · rw [if_neg h10]
    have ht : (Char.ofNat (55 + n)).toNat = 55 + n := char_toNat_ofNat (Or.inl (by omega))
    have hd : isAsciiDigit (Char.ofNat (55 + n)) = false := by
      rw [Bool.eq_false_iff]
      intro hc
      rw [isAsciiDigit_iff, ht] at hc
      omega
    refine ⟨?_, ?_, ?_, ?_⟩
    · rw [isAsciiHexDigit_iff, ht]; right; right; omega
    · unfold hexDigitVal
      rw [if_neg (by simp [hd]), if_neg, ht]
      · omega
      · intro hc
        rw [Bool.and_eq_true, decide_eq_true_eq, decide_eq_true_eq] at hc
        have h1 : ('a' : Char).toNat ≤ (Char.ofNat (55 + n)).toNat := char_le_iff.mp hc.1
        have h2 : (Char.ofNat (55 + n)).toNat ≤ ('f' : Char).toNat := char_le_iff.mp hc.2
        have hha : ('a' : Char).toNat = 97 := rfl
        have hhf : ('f' : Char).toNat = 102 := rfl
        rw [ht, hha] at h1
        rw [ht, hhf] at h2
        omega
    · rw [isAlwaysSafeByte_iff, ht]; right; left; omega
    · rw [ht]; omega

lemma isAlwaysSafeByte_lt_128 {b : Nat} (h : isAlwaysSafeByte b = true) : b < 128 := by
  rw [isAlwaysSafeByte_iff] at h
  omega

/-- Characters of quoted output: safe literals (below 128), characters of
the extra safe set, `%`, or hex digits. -/
lemma pyQuoteBytes_char_spec (safe : List Nat) (hsafe : ∀ x ∈ safe, x < 128) :
    ∀ (bs : List Nat), (∀ b ∈ bs, b < 256) →
    ∀ c ∈ pyQuoteBytes safe bs,
      c.toNat < 128 ∧
        (isAlwaysSafeByte c.toNat = true ∨ c.toNat ∈ safe ∨ c = '%' ∨ isAsciiHexDigit c = true) := by
  intro bs
  induction bs with
  | nil => intro _ c hc; simp [pyQuoteBytes] at hc
  | cons b bs' ih =>
    intro hbs c hc
    unfold pyQuoteBytes at hc
    rw [List.mem_append] at hc
    rcases hc with hc | hc
    · by_cases hs : (isAlwaysSafeByte b || safe.contains b) = true
      · rw [if_pos hs, List.mem_singleton] at hc
        subst hc
        rw [Bool.or_eq_true] at hs
        have hb128 : b < 128 := by
          rcases hs with hs | hs
          · exact isAlwaysSafeByte_lt_128 hs
          · exact hsafe b (List.elem_iff.mp hs)
        have ht : (Char.ofNat b).toNat = b := char_toNat_ofNat (Or.inl (by omega))
        rw [ht]
        rcases hs with hs | hs
        · exact ⟨hb128, Or.inl hs⟩
        · exact ⟨hb128, Or.inr (Or.inl (List.elem_iff.mp hs))⟩
      · rw [if_neg hs] at hc
        have hb256 : b < 256 := hbs b (List.mem_cons_self _ _)
        have s1 := hexDigitUpper_spec (show b / 16 < 16 by omega)
        have s2 := hexDigitUpper_spec (show b % 16 < 16 by omega)
        simp only [List.mem_cons, List.mem_singleton] at hc
        rcases hc with rfl | rfl | rfl | hc
        · exact ⟨by decide, Or.inr (Or.inr (Or.inl rfl))⟩
        · exact ⟨s1.2.2.2, Or.inr (Or.inr (Or.inr s1.1))⟩
        · exact ⟨s2.2.2.2, Or.inr (Or.inr (Or.inr s2.1))⟩
        · simp at hc
    · exact ih (fun x hx => hbs x (List.mem_cons_of_mem _ hx)) c hc

/-- Scanning quoted bytes recovers exactly those bytes, provided the extra
safe set holds only ASCII bytes other than `%`. -/
lemma pyUnquoteAux_quote (safe : List Nat) (hsafe : ∀ x ∈ safe, x < 128 ∧ x ≠ 37) :
    ∀ (bs : List Nat), (∀ b ∈ bs, b < 256) → ∀ (buf : List Nat),
    pyUnquoteAux (pyQuoteBytes safe bs) buf = utf8DecodeReplace (buf.reverse ++ bs) := by
  intro bs
  induction bs with
  | nil =>
    intro _ buf
    simp [pyQuoteBytes, pyUnquoteAux_nil]
  | cons b bs' ih =>
    intro hbs buf
    have hbs' : ∀ x ∈ bs', x < 256 := fun x hx => hbs x (List.mem_cons_of_mem _ hx)
    have hb256 : b < 256 := hbs b (List.mem_cons_self _ _)
    unfold pyQuoteBytes
    by_cases hs : (isAlwaysSafeByte b || safe.contains b) = true
    · rw [if_pos hs]
      rw [Bool.or_eq_true] at hs
      have hb : b < 128 ∧ b ≠ 37 := by
        rcases hs with hs | hs
        · have := isAlwaysSafeByte_iff b |>.mp hs
          omega
        · exact hsafe b (List.elem_iff.mp hs)
      have ht : (Char.ofNat b).toNat = b := char_toNat_ofNat (Or.inl (by omega))
      have hnp : Char.ofNat b ≠ '%' := by
        intro hc
        have := char_eq_iff_toNat.mp hc
        rw [ht] at this
        exact hb.2 this
      rw [List.singleton_append, pyUnquoteAux_ascii _ _ _ hnp (by rw [ht]; omega), ht, ih hbs']
      simp
    · rw [if_neg hs]
      have s1 := hexDigitUpper_spec (show b / 16 < 16 by omega)
      have s2 := hexDigitUpper_spec (show b % 16 < 16 by omega)
      have hstep := pyUnquoteAux_pct (hexDigitUpper (b / 16)) (hexDigitUpper (b % 16))
        (pyQuoteBytes safe bs') buf s1.1 s2.1
      have hval : hexDigitVal (hexDigitUpper (b / 16)) * 16 + hexDigitVal (hexDigitUpper (b % 16)) = b := by
        rw [s1.2.1, s2.2.1]
        omega
      rw [List.cons_append, List.cons_append, List.cons_append, List.nil_append, hstep, hval,
        ih hbs']
      simp

/-- `unquote ∘ plus-to-space ∘ quote_plus` is the identity: the query
encoding round-trips. -/
lemma pyUnquote_plusToSpace_pyQuotePlus (s : List Char) :
    pyUnquote (plusToSpace (pyQuotePlus s)) = s := by
  have henc : ∀ b ∈ utf8Encode s, b < 256 := utf8Encode_lt_256 s
  unfold pyQuotePlus
  by_cases hsp : s.contains ' ' = true
  · rw [if_pos hsp]
    have hfix : plusToSpace ((pyQuoteBytes [32] (utf8Encode s)).map
        (fun c => if c = ' ' then '+' else c)) = pyQuoteBytes [32] (utf8Encode s) := by
      unfold plusToSpace
      rw [List.map_map]
      have : ∀ c ∈ pyQuoteBytes [32] (utf8Encode s),
          ((fun c => if c = '+' then ' ' else c) ∘ fun c => if c = ' ' then '+' else c) c = c := by
        intro c hc
        have hspec := pyQuoteBytes_char_spec [32] (by intro x hx; simp at hx; omega)
          (utf8Encode s) henc c hc
        by_cases hce : c = ' '
        · subst hce
          simp
        · have hne : c ≠ '+' := by
            intro hc43
            subst hc43
            rcases hspec.2 with h | h | h | h
            · rw [isAlwaysSafeByte_iff] at h
              revert h
              decide
            · revert h
              decide
            · revert h
              decide
            · rw [isAsciiHexDigit_iff] at h
              revert h
              decide
          simp [hce, hne]
      rw [List.map_congr_left this]
      simp
    rw [hfix]
    unfold pyUnquote
    rw [pyUnquoteAux_quote [32] (by intro x hx; simp at hx; omega) (utf8Encode s) henc []]
    rw [List.reverse_nil, List.nil_append, utf8DecodeReplace_encode]
  · rw [if_neg hsp]
    have hfix : plusToSpace (pyQuoteBytes [] (utf8Encode s)) = pyQuoteBytes [] (utf8Encode s) := by
      unfold plusToSpace
      have : ∀ c ∈ pyQuoteBytes [] (utf8Encode s),
          (fun c => if c = '+' then ' ' else c) c = c := by
        intro c hc
        have hspec := pyQuoteBytes_char_spec [] (by intro x hx; simp at hx)
          (utf8Encode s) henc c hc
        have hne : c ≠ '+' := by
          intro hc43
          subst hc43
          rcases hspec.2 with h | h | h | h
          · rw [isAlwaysSafeByte_iff] at h
            revert h
            decide
          · simp at h
          · revert h
            decide
          · rw [isAsciiHexDigit_iff] at h
            revert h
            decide
        simp [hne]
      rw [List.map_congr_left this]
      simp
    rw [hfix]
    unfold pyUnquote
    rw [pyUnquoteAux_quote [] (by intro x hx; simp at hx) (utf8Encode s) henc []]
    rw [List.reverse_nil, List.nil_append, utf8DecodeReplace_encode]

/-! ### Query-string round trip (`parse_qsl` after `urlencode`) -/

lemma isAsciiHexDigit_alwaysSafe {c : Char} (h : isAsciiHexDigit c = true) :
    isAlwaysSafeByte c.toNat = true := by
  rw [isAsciiHexDigit_iff] at h
  rw [isAlwaysSafeByte_iff]
  omega

/-- Characters emitted by `quote_plus`: always-safe literals, `+`, or `%`. -/
lemma pyQuotePlus_char_spec (s : List Char) :
    ∀ c ∈ pyQuotePlus s, isAlwaysSafeByte c.toNat = true ∨ c = '+' ∨ c = '%' := by
  have henc : ∀ b ∈ utf8Encode s, b < 256 := utf8Encode_lt_256 s
  intro c hc
  unfold pyQuotePlus at hc
  by_cases hsp : s.contains ' ' = true
  · rw [if_pos hsp, List.mem_map] at hc
    obtain ⟨c0, hc0, hmap⟩ := hc
    have hspec := pyQuoteBytes_char_spec [32] (by intro x hx; simp at hx; omega)
      (utf8Encode s) henc c0 hc0
    by_cases hce : c0 = ' '
    · subst hce
      simp at hmap
      subst hmap
      right
      left
      rfl
    · rw [if_neg hce] at hmap
      subst hmap
      rcases hspec.2 with h | h | h | h
      · exact Or.inl h
      · simp at h
        exact absurd (char_eq_iff_toNat.mpr (show c0.toNat = (' ' : Char).toNat from h)) hce
      · exact Or.inr (Or.inr h)
      · exact Or.inl (isAsciiHexDigit_alwaysSafe h)
  · rw [if_neg hsp] at hc
    have hspec := pyQuoteBytes_char_spec [] (by intro x hx; simp at hx)
      (utf8Encode s) henc c hc
    rcases hspec.2 with h | h | h | h
    · exact Or.inl h
    · simp at h
    · exact Or.inr (Or.inr h)
    · exact Or.inl (isAsciiHexDigit_alwaysSafe h)

lemma amp_not_mem_pyQuotePlus (s : List Char) : '&' ∉ pyQuotePlus s := by
  intro hc
  rcases pyQuotePlus_char_spec s '&' hc with h | h | h
  · rw [isAlwaysSafeByte_iff] at h
    revert h
    decide
  · revert h
    decide
  · revert h
    decide

lemma eqsign_not_mem_pyQuotePlus (s : List Char) : '=' ∉ pyQuotePlus s := by
  intro hc
  rcases pyQuotePlus_char_spec s '=' hc with h | h | h
  · rw [isAlwaysSafeByte_iff] at h
    revert h
    decide
  · revert h
    decide
  · revert h
    decide

lemma splitOnChar_of_not_mem (sep : Char) (l : List Char) (h : sep ∉ l) :
    splitOnChar sep l = [l] := by
  induction l with
  | nil => rfl
  | cons c t ih =>
    simp only [List.mem_cons, not_or] at h
    rw [splitOnChar, if_neg (fun hc => h.1 hc.symm), ih h.2]

lemma splitOnChar_append_sep (sep : Char) (a t : List Char) (h : sep ∉ a) :
    splitOnChar sep (a ++ sep :: t) = a :: splitOnChar sep t := by
  induction a with
  | nil =>
    rw [List.nil_append, splitOnChar, if_pos rfl]
  | cons c a' ih =>
    simp only [List.mem_cons, not_or] at h
    rw [List.cons_append, splitOnChar, if_neg (fun hc => h.1 hc.symm), ih h.2]

lemma takeUntilChar_append (c : Char) (a b : List Char) (h : c ∉ a) :
    takeUntilChar c (a ++ c :: b) = a := by
  unfold takeUntilChar
  induction a with
  | nil => simp
  | cons x t ih =>
    simp only [List.mem_cons, not_or] at h
    rw [List.cons_append, List.takeWhile_cons,
      if_pos (by simp only [decide_eq_true_eq]; exact Ne.symm h.1), ih h.2]

lemma dropThroughChar_append (c : Char) (a b : List Char) (h : c ∉ a) :
    dropThroughChar c (a ++ c :: b) = b := by
  unfold dropThroughChar
  have hd : (a ++ c :: b).dropWhile (fun x => decide ¬ x = c) = c :: b := by
    induction a with
    | nil => simp [List.dropWhile_cons]
    | cons x t ih =>
      simp only [List.mem_cons, not_or] at h
      rw [List.cons_append, List.dropWhile_cons,
        if_pos (by simp only [decide_eq_true_eq]; exact Ne.symm h.1)]
      exact ih h.2
  rw [hd]

/-- One `k=v` field of `urlencode` output parses back to the pair. -/
lemma parse_field (k v : List Char) :
    pyUnquote (plusToSpace (takeUntilChar '=' (pyQuotePlus k ++ '=' :: pyQuotePlus v))) = k ∧
    pyUnquote (plusToSpace (dropThroughChar '=' (pyQuotePlus k ++ '=' :: pyQuotePlus v))) = v := by
  rw [takeUntilChar_append '=' _ _ (eqsign_not_mem_pyQuotePlus k),
    dropThroughChar_append '=' _ _ (eqsign_not_mem_pyQuotePlus k)]
  exact ⟨pyUnquote_plusToSpace_pyQuotePlus k, pyUnquote_plusToSpace_pyQuotePlus v⟩

lemma amp_not_mem_field (k v : List Char) :
    '&' ∉ pyQuotePlus k ++ '=' :: pyQuotePlus v := by
  intro hc
  rw [List.mem_append, List.mem_cons] at hc
  rcases hc with hc | hc | hc
  · exact amp_not_mem_pyQuotePlus k hc
  · exact absurd hc (by decide)
  · exact amp_not_mem_pyQuotePlus v hc

lemma field_ne_nil (k v : List Char) :
    pyQuotePlus k ++ '=' :: pyQuotePlus v ≠ [] := by
  intro hc
  have := congrArg List.length hc
  simp at this

lemma urlencode_ne_nil (kv : List Char × List Char) (rest : List (List Char × List Char)) :
    urlencode (kv :: rest) ≠ [] := by
  unfold urlencode
  cases rest with
  | nil =>
    simp only [List.map_cons, List.map_nil, joinAmp]
    exact field_ne_nil kv.1 kv.2
  | cons kv2 rest' =>
    simp only [List.map_cons, joinAmp]
    intro hc
    have := congrArg List.length hc
    simp at this

/-- `parse_qsl` inverts `urlencode` (string-valued pairs, `doseq=True`). -/
lemma parse_qsl_urlencode (pairs : List (List Char × List Char)) :
    parse_qsl (urlencode pairs) = pairs := by
  induction pairs with
  | nil => rfl
  | cons kv rest ih =>
    unfold parse_qsl
    rw [if_neg (urlencode_ne_nil kv rest)]
    cases rest with
    | nil =>
      show (splitOnChar '&' (urlencode [kv])).filterMap _ = [kv]
      have hu : urlencode [kv] = pyQuotePlus kv.1 ++ '=' :: pyQuotePlus kv.2 := by
        simp [urlencode, joinAmp]
      rw [hu, splitOnChar_of_not_mem '&' _ (amp_not_mem_field kv.1 kv.2)]
      rw [List.filterMap_cons, List.filterMap_nil]
      rw [if_neg (by simp)]
      rw [(parse_field kv.1 kv.2).1, (parse_field kv.1 kv.2).2]
    | cons kv2 rest' =>
      have hu : urlencode (kv :: kv2 :: rest') =
          (pyQuotePlus kv.1 ++ '=' :: pyQuotePlus kv.2) ++ '&' :: urlencode (kv2 :: rest') := by
        simp [urlencode, joinAmp]
      rw [hu, splitOnChar_append_sep '&' _ _ (amp_not_mem_field kv.1 kv.2)]
      rw [List.filterMap_cons]
      rw [if_neg (by simp)]
      rw [(parse_field kv.1 kv.2).1, (parse_field kv.1 kv.2).2]
      unfold parse_qsl at ih
      rw [if_neg (urlencode_ne_nil kv2 rest')] at ih
      rw [ih]

/-! ### Ordering lemmas for the query-parameter sort -/

lemma listCharLe_total : ∀ (x y : List Char), listCharLe x y = true ∨ listCharLe y x = true := by
  intro x
  induction x with
  | nil => intro y; left; rfl
  | cons a as ih =>
    intro y
    cases y with
    | nil => right; rfl
    | cons b bs =>
      simp only [listCharLe]
      rcases Nat.lt_trichotomy a.toNat b.toNat with h | h | h
      · left
        rw [if_pos h]
      · rw [if_neg (by omega), if_neg (by omega), if_neg (by omega), if_neg (by omega)]
        exact ih bs
      · right
        rw [if_pos h]

lemma listCharLe_trans : ∀ (x y z : List Char),
    listCharLe x y = true → listCharLe y z = true → listCharLe x z = true := by
  intro x
  induction x with
  | nil => intro y z _ _; rfl
  | cons a as ih =>
    intro y z hxy hyz
    cases y with
    | nil => exact absurd hxy (by simp [listCharLe])
    | cons b bs =>
      cases z with
      | nil => exact absurd hyz (by simp [listCharLe])
      | cons c cs =>
        simp only [listCharLe] at hxy hyz ⊢
        split_ifs at hxy hyz ⊢ with h1 h2 h3 h4 h5 h6 <;>
          first
            | rfl
            | omega
            | (exact ih bs cs hxy hyz)

lemma listCharLe_antisymm : ∀ (x y : List Char),
    listCharLe x y = true → listCharLe y x = true → x = y := by
  intro x
  induction x with
  | nil =>
    intro y _ hyx
    cases y with
    | nil => rfl
    | cons b bs => exact absurd hyx (by simp [listCharLe])
  | cons a as ih =>
    intro y hxy hyx
    cases y with
    | nil => exact absurd hxy (by simp [listCharLe])
    | cons b bs =>
      simp only [listCharLe] at hxy hyx
      split_ifs at hxy hyx with h1 h2 h3 <;>
        first
          | omega
          | (rw [char_eq_iff_toNat.mpr (by omega : a.toNat = b.toNat), ih bs hxy hyx])

lemma pairLe_total : ∀ (x y : List Char × List Char), pairLe x y = true ∨ pairLe y x = true := by
  intro x y
  unfold pairLe
  by_cases h : x.1 = y.1
  · rw [if_pos h, if_pos h.symm]
    exact listCharLe_total x.2 y.2
  · rw [if_neg h, if_neg (fun hc => h hc.symm)]
    exact listCharLe_total x.1 y.1

lemma pairLe_trans : ∀ (x y z : List Char × List Char),
    pairLe x y = true → pairLe y z = true → pairLe x z = true := by
  intro x y z hxy hyz
  unfold pairLe at hxy hyz ⊢
  by_cases h1 : x.1 = y.1 <;> by_cases h2 : y.1 = z.1
  · rw [if_pos h1] at hxy
    rw [if_pos h2] at hyz
    rw [if_pos (h1.trans h2)]
    exact listCharLe_trans _ _ _ hxy hyz
  · rw [if_pos h1] at hxy
    rw [if_neg h2] at hyz
    rw [if_neg (fun hc => h2 (h1 ▸ hc)), h1]
    exact hyz
  · rw [if_neg h1] at hxy
    rw [if_pos h2] at hyz
    rw [if_neg (fun hc => h1 (h2 ▸ hc)), ← h2]
    exact hxy
  · rw [if_neg h1] at hxy
    rw [if_neg h2] at hyz
    by_cases h3 : x.1 = z.1
    · exact absurd (listCharLe_antisymm _ _ hxy (h3 ▸ hyz)) h1
    · rw [if_neg h3]
      exact listCharLe_trans _ _ _ hxy hyz

instance instIsTotalPairLe : IsTotal (List Char × List Char) (fun x y => pairLe x y = true) :=
  ⟨pairLe_total⟩

instance instIsTransPairLe : IsTrans (List Char × List Char) (fun x y => pairLe x y = true) :=
  ⟨fun x y z => pairLe_trans x y z⟩

lemma insertionSort_pairLe_idem (l : List (List Char × List Char)) :
    List.insertionSort (fun x y => pairLe x y = true)
      (List.insertionSort (fun x y => pairLe x y = true) l) =
      List.insertionSort (fun x y => pairLe x y = true) l :=
  (List.sorted_insertionSort _ l).insertionSort_eq

lemma filter_insertionSort_filter (p : List Char × List Char → Bool)
    (l : List (List Char × List Char)) :
    (List.insertionSort (fun x y => pairLe x y = true) (l.filter p)).filter p =
      List.insertionSort (fun x y => pairLe x y = true) (l.filter p) := by
  apply List.filter_eq_self.mpr
  intro a ha
  have := (List.perm_insertionSort (fun x y => pairLe x y = true) (l.filter p)).mem_iff.mp ha
  exact List.of_mem_filter this

lemma bool_balance {a b : Bool} (h : ¬((a && !b || b && !a) = true)) : a = b := by
  cases a <;> cases b <;> simp_all

/-- Successful `urlsplit` results are built from `splitScheme` output by
netloc/fragment/query splitting. -/
lemma pyUrlsplit_ok_build {url0 : List Char} {sp : SplitResult} (h : pyUrlsplit url0 = .ok sp) :
    ∃ u2,
      (splitScheme ((url0.dropWhile c0ControlOrSpace).filter
          (fun c => !isUnsafeUrlByte c))).2 = u2 ∧
      sp.scheme = (splitScheme ((url0.dropWhile c0ControlOrSpace).filter
          (fun c => !isUnsafeUrlByte c))).1 ∧
      ((startsWithList ['/', '/'] u2 = true ∧
          sp.netloc = (u2.drop 2).takeWhile notSpecial ∧
          sp.path = takeUntilChar '?' (takeUntilChar '#' ((u2.drop 2).dropWhile notSpecial)) ∧
          sp.query = dropThroughChar '?' (takeUntilChar '#' ((u2.drop 2).dropWhile notSpecial)) ∧
          sp.fragment = dropThroughChar '#' ((u2.drop 2).dropWhile notSpecial)) ∨
        (startsWithList ['/', '/'] u2 = false ∧
          sp.netloc = [] ∧
          sp.path = takeUntilChar '?' (takeUntilChar '#' u2) ∧
          sp.query = dropThroughChar '?' (takeUntilChar '#' u2) ∧
          sp.fragment = dropThroughChar '#' u2)) ∧
      (sp.netloc.contains '[' = sp.netloc.contains ']') := by
  unfold pyUrlsplit at h
  by_cases hn : startsWithList ['/', '/'] (splitScheme ((url0.dropWhile c0ControlOrSpace).filter
      (fun c => !isUnsafeUrlByte c))).2 = true
  · simp only [hn, if_true, if_pos] at h
    split at h
    · exact absurd h (by simp)
    rename_i hbal
    split at h
    · exact absurd h (by simp)
    rename_i hu hcb
    rw [Except.ok.injEq] at h
    subst h
    refine ⟨_, rfl, rfl, Or.inl ⟨hn, rfl, rfl, rfl, rfl⟩, ?_⟩
    exact bool_balance hbal
  · rw [Bool.not_eq_true] at hn
    simp only [hn, Bool.false_eq_true, if_false] at h
    split at h
    · exact absurd h (by simp)
    · split at h
      · exact absurd h (by simp)
      · rw [Except.ok.injEq] at h
        subst h
        refine ⟨_, rfl, rfl, Or.inr ⟨hn, rfl, rfl, rfl, rfl⟩, ?_⟩
        simp

/-! ### Scheme-character facts -/

lemma mem_map_toNat_iff (l : List Char) (c : Char) : c.toNat ∈ l.map Char.toNat ↔ c ∈ l := by
  constructor
  · intro h
    rw [List.mem_map] at h
    obtain ⟨d, hd, hdc⟩ := h
    rwa [char_eq_iff_toNat.mpr hdc.symm]
  · intro h
    exact List.mem_map_of_mem _ h

lemma char_toNat_lt (c : Char) : c.toNat < 1114112 := by
  have h := c.valid
  have h2 : c.toNat = c.val.toNat := rfl
  rcases h with h | h <;> omega

lemma isAsciiAlpha_iff (c : Char) : isAsciiAlpha c = true ↔
    (65 ≤ c.toNat ∧ c.toNat ≤ 90) ∨ (97 ≤ c.toNat ∧ c.toNat ≤ 122) := by
  have hA : ('A' : Char).toNat = 65 := rfl
  have hZ : ('Z' : Char).toNat = 90 := rfl
  have ha : ('a' : Char).toNat = 97 := rfl
  have hz : ('z' : Char).toNat = 122 := rfl
  unfold isAsciiAlpha
  rw [Bool.or_eq_true, Bool.and_eq_true, Bool.and_eq_true]
  simp only [decide_eq_true_eq, char_le_iff, hA, hZ, ha, hz]

lemma schemeChars_mem_iff (c : Char) : c ∈ schemeChars ↔
    (97 ≤ c.toNat ∧ c.toNat ≤ 122) ∨ (65 ≤ c.toNat ∧ c.toNat ≤ 90)
      ∨ (48 ≤ c.toNat ∧ c.toNat ≤ 57) ∨ c.toNat = 43 ∨ c.toNat = 45 ∨ c.toNat = 46 := by
  rw [← mem_map_toNat_iff]
  constructor
  · intro h
    have hall : ∀ n ∈ schemeChars.map Char.toNat,
        (97 ≤ n ∧ n ≤ 122) ∨ (65 ≤ n ∧ n ≤ 90)
          ∨ (48 ≤ n ∧ n ≤ 57) ∨ n = 43 ∨ n = 45 ∨ n = 46 := by decide
    exact hall _ h
  · intro h
    have hall : ∀ n ∈ List.range 256,
        ((97 ≤ n ∧ n ≤ 122) ∨ (65 ≤ n ∧ n ≤ 90)
          ∨ (48 ≤ n ∧ n ≤ 57) ∨ n = 43 ∨ n = 45 ∨ n = 46) →
          n ∈ schemeChars.map Char.toNat := by decide
    exact hall c.toNat (List.mem_range.mpr (by omega)) h

lemma schemeChars_contains_pyLowerChar {c : Char} (h : schemeChars.contains c = true) :
    schemeChars.contains (pyLowerChar c) = true := by
  rw [List.elem_iff] at h ⊢
  rcases pyLowerChar_cases c with h1 | ⟨h1, h2, h3⟩
  · rwa [h1]
  · rw [schemeChars_mem_iff, h3]
    left
    omega

lemma isAsciiAlpha_pyLowerChar {c : Char} (h : isAsciiAlpha c = true) :
    isAsciiAlpha (pyLowerChar c) = true := by
  rcases pyLowerChar_cases c with h1 | ⟨h1, h2, h3⟩
  · rwa [h1]
  · rw [isAsciiAlpha_iff, h3]
    right
    omega

lemma mem_schemeChars_not_special {c : Char} (h : c ∈ schemeChars) :
    c.toNat ≠ 58 ∧ notSpecial c = true ∧ isUnsafeUrlByte c = false ∧
      33 ≤ c.toNat ∧ c.toNat ≠ 37 := by
  rw [schemeChars_mem_iff] at h
  refine ⟨by omega, ?_, ?_, by omega, by omega⟩
  · unfold notSpecial
    simp only [Bool.not_eq_true', Bool.or_eq_false_iff, decide_eq_false_iff_not]
    refine ⟨⟨?_, ?_⟩, ?_⟩ <;>
      (intro hc; rw [char_eq_iff_toNat] at hc; revert hc; simp; omega)
  · unfold isUnsafeUrlByte
    simp only [Bool.or_eq_false_iff, decide_eq_false_iff_not]
    refine ⟨⟨?_, ?_⟩, ?_⟩ <;>
      (intro hc; rw [char_eq_iff_toNat] at hc; revert hc; simp; omega)

/-! ### Subset lemmas for the splitting helpers -/

lemma splitScheme_eq_none {url : List Char} (hf : url.findIdx? (· = ':') = none) :
    splitScheme url = ([], url) := by
  unfold splitScheme
  rw [hf]

lemma splitScheme_eq_some {url : List Char} {i : Nat}
    (hf : url.findIdx? (· = ':') = some i) :
    splitScheme url =
      if 0 < i ∧ headIsAsciiAlpha url = true ∧
          (url.take i).all (fun c => schemeChars.contains c) = true
      then (pyLower (url.take i), url.drop (i + 1)) else ([], url) := by
  unfold splitScheme
  rw [hf]

lemma splitScheme_snd_subset (l : List Char) : ∀ c ∈ (splitScheme l).2, c ∈ l := by
  cases hf : l.findIdx? (· = ':') with
  | none => rw [splitScheme_eq_none hf]; intro c hc; exact hc
  | some i =>
    rw [splitScheme_eq_some hf]
    by_cases hc : 0 < i ∧ headIsAsciiAlpha l = true ∧
        (l.take i).all (fun c => schemeChars.contains c) = true
    · rw [if_pos hc]
      intro c hcm
      exact List.drop_subset _ _ hcm
    · rw [if_neg hc]
      intro c hcm
      exact hcm

lemma splitScheme_cases (url : List Char) :
    (splitScheme url).1 = [] ∨
      (∃ i, url.findIdx? (· = ':') = some i ∧ 0 < i ∧ headIsAsciiAlpha url = true ∧
        (url.take i).all (fun c => schemeChars.contains c) = true ∧
        splitScheme url = (pyLower (url.take i), url.drop (i + 1))) := by
  cases hf : url.findIdx? (· = ':') with
  | none => left; rw [splitScheme_eq_none hf]
  | some i =>
    by_cases hc : 0 < i ∧ headIsAsciiAlpha url = true ∧
        (url.take i).all (fun c => schemeChars.contains c) = true
    · right
      exact ⟨i, rfl, hc.1, hc.2.1, hc.2.2, by rw [splitScheme_eq_some hf, if_pos hc]⟩
    · left
      rw [splitScheme_eq_some hf, if_neg hc]

lemma mem_takeUntilChar {d c : Char} {l : List Char} (h : c ∈ takeUntilChar d l) :
    c ≠ d ∧ c ∈ l := by
  unfold takeUntilChar at h
  refine ⟨?_, (List.takeWhile_prefix _).subset h⟩
  have := List.mem_takeWhile_imp h
  simpa using this

lemma mem_dropThroughChar {d c : Char} {l : List Char} (h : c ∈ dropThroughChar d l) :
    c ∈ l := by
  unfold dropThroughChar at h
  rcases hd : l.dropWhile (fun x => decide ¬ x = d) with _ | ⟨x, t⟩
  · rw [hd] at h
    simp at h
  · rw [hd] at h
    have hsub : x :: t ⊆ l := by
      rw [← hd]
      exact (List.dropWhile_suffix _).subset
    exact hsub (List.mem_cons_of_mem _ h)

lemma mem_afterLastChar {d c : Char} {l : List Char} (h : c ∈ afterLastChar d l) :
    c ≠ d ∧ c ∈ l := by
  unfold afterLastChar at h
  rw [List.mem_reverse] at h
  have h1 := List.mem_takeWhile_imp h
  have h2 := (List.takeWhile_prefix _).subset h
  rw [List.mem_reverse] at h2
  exact ⟨by simpa using h1, h2⟩

/-! ### Inversion facts for successful `urlsplit` -/

lemma pyUrlsplit_ok_scheme {url0 : List Char} {sp : SplitResult} (h : pyUrlsplit url0 = .ok sp) :
    sp.scheme = [] ∨
      (pyLower sp.scheme = sp.scheme ∧ headIsAsciiAlpha sp.scheme = true ∧
        ∀ c ∈ sp.scheme, schemeChars.contains c = true) := by
  obtain ⟨u2, _, hs, _, _⟩ := pyUrlsplit_ok_build h
  set u1 := (url0.dropWhile c0ControlOrSpace).filter (fun c => !isUnsafeUrlByte c) with hu1
  rcases splitScheme_cases u1 with hc | ⟨i, hf, hi, hha, hall, heq⟩
  · left
    rw [hs, hc]
  · right
    have hs1 : sp.scheme = pyLower (u1.take i) := by
      rw [hs, heq]
    refine ⟨by rw [hs1, pyLower_idem], ?_, ?_⟩
    · cases hu : u1 with
      | nil =>
        rw [hu] at hha
        exact absurd hha (by simp [headIsAsciiAlpha])
      | cons a t =>
        rw [hu] at hha
        have ha : isAsciiAlpha a = true := hha
        obtain ⟨j, hj⟩ : ∃ j, i = j + 1 := ⟨i - 1, by omega⟩
        rw [hs1, hu, hj, List.take_succ_cons]
        exact isAsciiAlpha_pyLowerChar ha
    · intro c hc
      rw [hs1] at hc
      simp only [pyLower, List.mem_map] at hc
      obtain ⟨d, hd, hdc⟩ := hc
      rw [List.all_eq_true] at hall
      rw [← hdc]
      exact schemeChars_contains_pyLowerChar (hall d hd)

lemma takeUntilChar_cons_ne (d c : Char) (t : List Char) (h : c ≠ d) :
    takeUntilChar d (c :: t) = c :: takeUntilChar d t := by
  unfold takeUntilChar
  rw [List.takeWhile_cons, if_pos (by simp [h])]

lemma takeUntilChar_cons_eq (d : Char) (t : List Char) : takeUntilChar d (d :: t) = [] := by
  unfold takeUntilChar
  rw [List.takeWhile_cons, if_neg (by simp)]

lemma pyUrlsplit_ok_netloc {url0 : List Char} {sp : SplitResult}
    (h : pyUrlsplit url0 = .ok sp) :
    (∀ c ∈ sp.netloc, isUnsafeUrlByte c = false ∧ notSpecial c = true) ∧
      sp.netloc.contains '[' = sp.netloc.contains ']' := by
  obtain ⟨u2, hu2, hs, hbr, hbal⟩ := pyUrlsplit_ok_build h
  refine ⟨?_, hbal⟩
  intro c hc
  rcases hbr with ⟨hn, hnet, _⟩ | ⟨hn, hnet, _⟩
  · rw [hnet] at hc
    have hp := List.mem_takeWhile_imp hc
    have hmem : c ∈ u2 := List.drop_subset _ _ ((List.takeWhile_prefix _).subset hc)
    rw [← hu2] at hmem
    have hu1 := List.of_mem_filter (splitScheme_snd_subset _ _ hmem)
    exact ⟨by simpa using hu1, hp⟩
  · rw [hnet] at hc
    simp at hc

lemma pyUrlsplit_ok_path {url0 : List Char} {sp : SplitResult}
    (h : pyUrlsplit url0 = .ok sp) :
    (∀ c ∈ sp.path, isUnsafeUrlByte c = false ∧ c ≠ '#' ∧ c ≠ '?') ∧
      (sp.netloc ≠ [] → sp.path = [] ∨ sp.path.headD ' ' = '/') := by
  obtain ⟨u2, hu2, hs, hbr, hbal⟩ := pyUrlsplit_ok_build h
  constructor
  · intro c hc
    have hx : ∃ X, sp.path = takeUntilChar '?' (takeUntilChar '#' X) ∧ (∀ d ∈ X, d ∈ u2) := by
      rcases hbr with ⟨_, _, hp, _⟩ | ⟨_, _, hp, _⟩
      · exact ⟨_, hp, fun d hd => List.drop_subset _ _ ((List.dropWhile_suffix _).subset hd)⟩
      · exact ⟨u2, hp, fun d hd => hd⟩
    obtain ⟨X, hp, hXsub⟩ := hx
    rw [hp] at hc
    obtain ⟨hq, hc2⟩ := mem_takeUntilChar hc
    obtain ⟨hh, hc3⟩ := mem_takeUntilChar hc2
    have hmem : c ∈ u2 := hXsub c hc3
    rw [← hu2] at hmem
    have hu1 := List.of_mem_filter (splitScheme_snd_subset _ _ hmem)
    exact ⟨by simpa using hu1, hh, hq⟩
  · intro hne
    rcases hbr with ⟨_, hnet, hp, _⟩ | ⟨_, hnet, _⟩
    · cases hX : (u2.drop 2).dropWhile notSpecial with
      | nil =>
        left
        rw [hp, hX]
        rfl
      | cons x xs =>
        have hns : ¬ notSpecial x = true := dropWhile_head_not _ _ x (by rw [hX]; rfl)
        have hxor : x = '/' ∨ x = '?' ∨ x = '#' := by
          unfold notSpecial at hns
          simp at hns
          tauto
        rcases hxor with rfl | rfl | rfl
        · right
          rw [hp, hX, takeUntilChar_cons_ne '#' '/' xs (by decide),
            takeUntilChar_cons_ne '?' '/' _ (by decide)]
          rfl
        · left
          rw [hp, hX, takeUntilChar_cons_ne '#' '?' xs (by decide), takeUntilChar_cons_eq]
        · left
          rw [hp, hX, takeUntilChar_cons_eq]
          rfl
    · exact absurd hnet hne

/-! ### Forward computation helpers for re-splitting a canonical URL -/

lemma takeWhile_append_all {p : Char → Bool} (a b : List Char) (h : ∀ c ∈ a, p c = true) :
    (a ++ b).takeWhile p = a ++ b.takeWhile p := by
  induction a with
  | nil => simp
  | cons c t ih =>
    rw [List.cons_append, List.takeWhile_cons, if_pos (h c (List.mem_cons_self _ _)),
      List.cons_append, ih (fun d hd => h d (List.mem_cons_of_mem _ hd))]

lemma dropWhile_append_all {p : Char → Bool} (a b : List Char) (h : ∀ c ∈ a, p c = true) :
    (a ++ b).dropWhile p = b.dropWhile p := by
  induction a with
  | nil => simp
  | cons c t ih =>
    rw [List.cons_append, List.dropWhile_cons, if_pos (h c (List.mem_cons_self _ _)),
      ih (fun d hd => h d (List.mem_cons_of_mem _ hd))]

lemma takeWhile_cons_false {p : Char → Bool} {c : Char} (t : List Char) (h : p c = false) :
    (c :: t).takeWhile p = [] := by
  rw [List.takeWhile_cons, if_neg (by simp [h])]

lemma dropWhile_cons_false {p : Char → Bool} {c : Char} (t : List Char) (h : p c = false) :
    (c :: t).dropWhile p = c :: t := by
  rw [List.dropWhile_cons, if_neg (by simp [h])]

lemma takeUntilChar_of_not_mem {d : Char} {l : List Char} (h : d ∉ l) :
    takeUntilChar d l = l := by
  unfold takeUntilChar
  apply List.takeWhile_eq_self_iff.mpr
  intro x hx
  simp only [decide_eq_true_eq]
  exact fun hc => h (hc ▸ hx)

lemma dropThroughChar_of_not_mem {d : Char} {l : List Char} (h : d ∉ l) :
    dropThroughChar d l = [] := by
  unfold dropThroughChar
  have hd : l.dropWhile (fun x => decide ¬ x = d) = [] := by
    apply List.dropWhile_eq_nil_iff.mpr
    intro x hx
    simp only [decide_eq_true_eq]
    exact fun hc => h (hc ▸ hx)
  rw [hd]

lemma contains_eq_false_of_not_mem {c : Char} {l : List Char} (h : c ∉ l) :
    l.contains c = false := by
  cases hc : l.contains c with
  | false => rfl
  | true => exact absurd (List.elem_iff.mp hc) h

lemma startsWithList_slash_slash (x : List Char) :
    startsWithList ['/', '/'] ('/' :: '/' :: x) = true := by
  cases x <;> simp [startsWithList]

lemma findIdx_colon_aux (a rest : List Char) (h : ∀ c ∈ a, c ≠ ':') :
    ∀ s : Nat, List.findIdx? (fun c => decide (c = ':')) (a ++ ':' :: rest) s
      = some (s + a.length) := by
  induction a with
  | nil =>
    intro s
    rw [List.nil_append, List.findIdx?_cons, if_pos (by simp)]
    simp
  | cons c t ih =>
    intro s
    rw [List.cons_append, List.findIdx?_cons,
      if_neg (by simp [h c (List.mem_cons_self _ _)]),
      ih (fun d hd => h d (List.mem_cons_of_mem _ hd)) (s + 1)]
    congr 1
    simp only [List.length_cons]
    omega

lemma findIdx_colon (a rest : List Char) (h : ∀ c ∈ a, c ≠ ':') :
    (a ++ ':' :: rest).findIdx? (· = ':') = some a.length := by
  have := findIdx_colon_aux a rest h 0
  simpa using this

/-- A canonically assembled absolute URL re-splits into its components. -/
lemma pyUrlsplit_canonical (scheme netloc1 path query : List Char)
    (hs_ne : scheme ≠ [])
    (hs_head : headIsAsciiAlpha scheme = true)
    (hs_chars : ∀ c ∈ scheme, schemeChars.contains c = true)
    (hs_low : pyLower scheme = scheme)
    (hn_ne : netloc1 ≠ [])
    (hn_chars : ∀ c ∈ netloc1,
      isUnsafeUrlByte c = false ∧ notSpecial c = true ∧ c ≠ '[' ∧ c ≠ ']')
    (hp_head : path.headD ' ' = '/')
    (hp_chars : ∀ c ∈ path, isUnsafeUrlByte c = false ∧ c ≠ '#' ∧ c ≠ '?')
    (hq_chars : ∀ c ∈ query, isUnsafeUrlByte c = false ∧ c ≠ '#' ∧ c ≠ '?') :
    pyUrlsplit (pyUrlunsplit scheme netloc1 path query []) =
      .ok ⟨scheme, netloc1, path, query, []⟩ := by
  obtain ⟨a, scheme', hsch⟩ : ∃ a t, scheme = a :: t := by
    cases scheme with
    | nil => exact absurd rfl hs_ne
    | cons a t => exact ⟨a, t, rfl⟩
  obtain ⟨path', hpath⟩ : ∃ t, path = '/' :: t := by
    cases path with
    | nil => exact absurd hp_head (by simp)
    | cons a t => exact ⟨t, by rw [show a = '/' from by simpa using hp_head]⟩
  have hv : pyUrlunsplit scheme netloc1 path query [] =
      scheme ++ ':' :: ('/' :: '/' ::
        (netloc1 ++ (path ++ (if query ≠ [] then '?' :: query else [])))) := by
    unfold pyUrlunsplit
    rw [if_neg (show ¬(([] : List Char) ≠ []) by simp)]
    rw [if_pos hs_ne]
    rw [if_pos (show netloc1 ≠ [] ∨ (scheme ≠ [] ∧ scheme ∈ usesNetlocSchemes ∧
      ¬ startsWithList ['/', '/'] path = true) from Or.inl hn_ne)]
    rw [if_neg (show ¬(path ≠ [] ∧ path.headD '/' ≠ '/') by rw [hpath]; simp)]
    by_cases hq : query ≠ []
    · rw [if_pos hq, if_pos hq]
      simp
    · rw [if_neg hq, if_neg hq]
      simp
  rw [hv]
  set opt : List Char := if query ≠ [] then '?' :: query else [] with hopt
  set tail1 : List Char := '/' :: '/' :: (netloc1 ++ (path ++ opt)) with htail1
  have hopt_chars : ∀ c ∈ opt, isUnsafeUrlByte c = false ∧ c ≠ '#' := by
    intro c hc
    rw [hopt] at hc
    by_cases hq : query ≠ []
    · rw [if_pos hq, List.mem_cons] at hc
      rcases hc with rfl | hc
      · exact ⟨rfl, by decide⟩
      · exact ⟨(hq_chars c hc).1, (hq_chars c hc).2.1⟩
    · rw [if_neg hq] at hc
      simp at hc
  have hall : ∀ c ∈ scheme ++ ':' :: tail1, isUnsafeUrlByte c = false := by
    intro c hc
    rw [List.mem_append] at hc
    rcases hc with hc | hc
    · exact (mem_schemeChars_not_special (List.elem_iff.mp (hs_chars c hc))).2.2.1
    rw [List.mem_cons] at hc
    rcases hc with rfl | hc
    · rfl
    rw [htail1] at hc
    simp only [List.mem_cons, List.mem_append] at hc
    rcases hc with rfl | rfl | hc | hc | hc
    · rfl
    · rfl
    · exact (hn_chars c hc).1
    · exact (hp_chars c hc).1
    · exact (hopt_chars c hc).1
  have hdrop : (scheme ++ ':' :: tail1).dropWhile c0ControlOrSpace = scheme ++ ':' :: tail1 := by
    rw [hsch, List.cons_append, dropWhile_cons_false]
    have := (mem_schemeChars_not_special
      (List.elem_iff.mp (hs_chars a (by rw [hsch]; exact List.mem_cons_self _ _)))).2.2.2.1
    unfold c0ControlOrSpace
    simp only [decide_eq_false_iff_not]
    omega
  have hfilt : (scheme ++ ':' :: tail1).filter (fun c => !isUnsafeUrlByte c)
      = scheme ++ ':' :: tail1 := by
    apply List.filter_eq_self.mpr
    intro c hc
    rw [hall c hc]
    rfl
  have hcolon : ∀ c ∈ scheme, c ≠ ':' := by
    intro c hc hceq
    have := (mem_schemeChars_not_special (List.elem_iff.mp (hs_chars c hc))).1
    rw [hceq] at this
    exact this rfl
  have hsplit : splitScheme (scheme ++ ':' :: tail1) = (scheme, tail1) := by
    rw [splitScheme_eq_some (findIdx_colon scheme tail1 hcolon)]
    rw [if_pos ?hcond]
    case hcond =>
      refine ⟨by rw [hsch]; simp, ?_, ?_⟩
      · rw [hsch, List.cons_append]
        rw [hsch] at hs_head
        exact hs_head
      · rw [List.take_left]
        rw [List.all_eq_true]
        exact hs_chars
    rw [List.take_left]
    have hdropn : (scheme ++ ':' :: tail1).drop (scheme.length + 1) = tail1 := by
      have h2 : scheme ++ ':' :: tail1 = (scheme ++ [':']) ++ tail1 := by simp
      rw [h2]
      apply List.drop_left'
      simp
    rw [hdropn, hs_low]
  unfold pyUrlsplit
  simp only [hdrop, hfilt, hsplit]
  have hstart : startsWithList ['/', '/'] tail1 = true := by
    rw [htail1]
    exact startsWithList_slash_slash _
  have hd2 : List.drop 2 tail1 = netloc1 ++ (path ++ opt) := by
    rw [htail1]
    rfl
  have htake : (netloc1 ++ (path ++ opt)).takeWhile
      (fun c => !(c = '/' || c = '?' || c = '#')) = netloc1 := by
    rw [@takeWhile_append_all (fun c => !(c = '/' || c = '?' || c = '#')) netloc1 (path ++ opt)
        (fun c hc => (hn_chars c hc).2.1), hpath, List.cons_append,
      takeWhile_cons_false _ (by decide), List.append_nil]
  have hdropw : (netloc1 ++ (path ++ opt)).dropWhile
      (fun c => !(c = '/' || c = '?' || c = '#')) = path ++ opt := by
    rw [@dropWhile_append_all (fun c => !(c = '/' || c = '?' || c = '#')) netloc1 (path ++ opt)
        (fun c hc => (hn_chars c hc).2.1), hpath, List.cons_append,
      dropWhile_cons_false _ (by decide)]
  have hcl : netloc1.contains '[' = false :=
    contains_eq_false_of_not_mem (fun hc => (hn_chars _ hc).2.2.1 rfl)
  have hcr : netloc1.contains ']' = false :=
    contains_eq_false_of_not_mem (fun hc => (hn_chars _ hc).2.2.2 rfl)
  have hhash : '#' ∉ path ++ opt := by
    intro hc
    rw [List.mem_append] at hc
    rcases hc with hc | hc
    · exact (hp_chars _ hc).2.1 rfl
    · exact (hopt_chars _ hc).2 rfl
  have htu : takeUntilChar '#' (path ++ opt) = path ++ opt := takeUntilChar_of_not_mem hhash
  have hfrag : dropThroughChar '#' (path ++ opt) = [] := dropThroughChar_of_not_mem hhash
  have hqpath : '?' ∉ path := fun hc => (hp_chars _ hc).2.2 rfl
  have htq : takeUntilChar '?' (path ++ opt) = path := by
    rw [hopt]
    by_cases hq : query ≠ []
    · rw [if_pos hq]
      exact takeUntilChar_append _ _ _ hqpath
    · rw [if_neg hq, List.append_nil]
      exact takeUntilChar_of_not_mem hqpath
  have hdq : dropThroughChar '?' (path ++ opt) = query := by
    rw [hopt]
    by_cases hq : query ≠ []
    · rw [if_pos hq]
      exact dropThroughChar_append _ _ _ hqpath
    · rw [if_neg hq, List.append_nil, dropThroughChar_of_not_mem hqpath]
      rw [not_not] at hq
      exact hq.symm
  rw [hstart]
  simp only [eq_self_iff_true, if_true]
  rw [hd2, htake, hdropw, hcl, hcr]
  rw [if_neg (show ¬((false && !false || false && !false) = true) by decide)]
  rw [if_neg (show ¬((false && false) = true) by decide)]
  rw [htu, htq, hdq, hfrag]

/-! ### Hostname/port reconstruction -/

lemma pyLower_eq_self_iff (l : List Char) : pyLower l = l ↔ ∀ c ∈ l, pyLowerChar c = c := by
  unfold pyLower
  constructor
  · intro h c hc
    induction l with
    | nil => simp at hc
    | cons a t ih =>
      rw [List.map_cons] at h
      injection h with h1 h2
      rw [List.mem_cons] at hc
      rcases hc with rfl | hc
      · exact h1
      · exact ih h2 hc
  · intro h
    rw [List.map_congr_left h]
    simp

lemma takeUntil_append_dropThrough {d : Char} {l : List Char} (h : d ∈ l) :
    takeUntilChar d l ++ d :: dropThroughChar d l = l := by
  induction l with
  | nil => simp at h
  | cons c t ih =>
    by_cases hc : c = d
    · subst hc
      rw [takeUntilChar_cons_eq]
      unfold dropThroughChar
      rw [List.dropWhile_cons, if_neg (by simp)]
      rfl
    · rw [takeUntilChar_cons_ne d c t hc]
      have hdt : d ∈ t := by
        rw [List.mem_cons] at h
        rcases h with h | h
        · exact absurd h.symm hc
        · exact h
      have hdrop : dropThroughChar d (c :: t) = dropThroughChar d t := by
        unfold dropThroughChar
        rw [List.dropWhile_cons, if_pos (by simp [hc])]
      rw [hdrop, List.cons_append, ih hdt]

lemma afterLastChar_of_not_mem {d : Char} {l : List Char} (h : d ∉ l) :
    afterLastChar d l = l := by
  unfold afterLastChar
  have : l.reverse.takeWhile (fun x => decide ¬ x = d) = l.reverse := by
    apply List.takeWhile_eq_self_iff.mpr
    intro x hx
    rw [List.mem_reverse] at hx
    simp only [decide_eq_true_eq]
    exact fun hc => h (hc ▸ hx)
  rw [this, List.reverse_reverse]

lemma hostinfoOf_plain (host : List Char) (hat : '@' ∉ host) (hbr : '[' ∉ host)
    (hcol : ':' ∉ host) : hostinfoOf host = (host, none) := by
  unfold hostinfoOf
  simp only [afterLastChar_of_not_mem hat, contains_eq_false_of_not_mem hbr,
    Bool.false_eq_true, if_false, takeUntilChar_of_not_mem hcol,
    dropThroughChar_of_not_mem hcol]
  simp

lemma hostinfoOf_with_port (host : List Char) (p : Nat) (hat : '@' ∉ host) (hbr : '[' ∉ host)
    (hcol : ':' ∉ host) :
    hostinfoOf (host ++ ':' :: natToDec p) = (host, some (natToDec p)) := by
  unfold hostinfoOf
  have hat2 : '@' ∉ host ++ ':' :: natToDec p := by
    intro hc
    rw [List.mem_append, List.mem_cons] at hc
    rcases hc with hc | hc | hc
    · exact hat hc
    · exact absurd hc (by decide)
    · have := natToDec_digits p _ hc
      rw [isAsciiDigit_iff] at this
      simp at this
  have hbr2 : '[' ∉ host ++ ':' :: natToDec p := by
    intro hc
    rw [List.mem_append, List.mem_cons] at hc
    rcases hc with hc | hc | hc
    · exact hbr hc
    · exact absurd hc (by decide)
    · have := natToDec_digits p _ hc
      rw [isAsciiDigit_iff] at this
      simp at this
  simp only [afterLastChar_of_not_mem hat2, contains_eq_false_of_not_mem hbr2,
    Bool.false_eq_true, if_false, takeUntilChar_append _ _ _ hcol,
    dropThroughChar_append _ _ _ hcol, if_neg (natToDec_ne_nil p)]

lemma portOf_plain (host : List Char) (hat : '@' ∉ host) (hbr : '[' ∉ host)
    (hcol : ':' ∉ host) : portOf host = .ok none := by
  unfold portOf
  rw [hostinfoOf_plain host hat hbr hcol]

lemma portOf_with_port (host : List Char) (p : Nat) (hat : '@' ∉ host) (hbr : '[' ∉ host)
    (hcol : ':' ∉ host) (hle : p ≤ 65535) :
    portOf (host ++ ':' :: natToDec p) = .ok (some p) := by
  unfold portOf
  rw [hostinfoOf_with_port host p hat hbr hcol]
  have hd : (natToDec p).all isAsciiDigit = true := by
    rw [List.all_eq_true]
    exact natToDec_digits p
  simp only [hd, decToNat_natToDec, if_true]
  rw [if_pos hle]

lemma hostnameOf_plain (host : List Char) (hne : host ≠ []) (hat : '@' ∉ host)
    (hbr : '[' ∉ host) (hcol : ':' ∉ host) (hfix : pyLower host = host) :
    ∃ H, hostnameOf host = some H ∧ pyLower H = host := by
  unfold hostnameOf
  rw [hostinfoOf_plain host hat hbr hcol]
  simp only [if_neg hne]
  by_cases hpc : host.contains '%' = true
  · rw [if_pos hpc]
    refine ⟨_, rfl, ?_⟩
    have hmem : '%' ∈ host := List.elem_iff.mp hpc
    have hfixall := (pyLower_eq_self_iff host).mp hfix
    have h1 : pyLower (takeUntilChar '%' host) = takeUntilChar '%' host := by
      apply (pyLower_eq_self_iff _).mpr
      intro c hc
      exact hfixall c (mem_takeUntilChar hc).2
    have h2 : pyLower (dropThroughChar '%' host) = dropThroughChar '%' host := by
      apply (pyLower_eq_self_iff _).mpr
      intro c hc
      exact hfixall c (mem_dropThroughChar hc)
    calc pyLower (pyLower (takeUntilChar '%' host) ++ '%' :: dropThroughChar '%' host)
        = pyLower (takeUntilChar '%' host ++ '%' :: dropThroughChar '%' host) := by rw [h1]
      _ = pyLower (takeUntilChar '%' host) ++ pyLowerChar '%' ::
            pyLower (dropThroughChar '%' host) := by
            unfold pyLower
            rw [List.map_append, List.map_cons]
      _ = takeUntilChar '%' host ++ '%' :: dropThroughChar '%' host := by
            rw [h1, h2]
            rfl
      _ = host := takeUntil_append_dropThrough hmem
  · rw [if_neg hpc]
    refine ⟨_, rfl, ?_⟩
    rw [pyLower_idem, hfix]

lemma hostnameOf_with_port (host : List Char) (p : Nat) (hne : host ≠ []) (hat : '@' ∉ host)
    (hbr : '[' ∉ host) (hcol : ':' ∉ host) (hfix : pyLower host = host) :
    ∃ H, hostnameOf (host ++ ':' :: natToDec p) = some H ∧ pyLower H = host := by
  have hhi := hostinfoOf_with_port host p hat hbr hcol
  unfold hostnameOf
  rw [hhi]
  simp only [if_neg hne]
  by_cases hpc : host.contains '%' = true
  · rw [if_pos hpc]
    refine ⟨_, rfl, ?_⟩
    have hmem : '%' ∈ host := List.elem_iff.mp hpc
    have hfixall := (pyLower_eq_self_iff host).mp hfix
    have h1 : pyLower (takeUntilChar '%' host) = takeUntilChar '%' host := by
      apply (pyLower_eq_self_iff _).mpr
      intro c hc
      exact hfixall c (mem_takeUntilChar hc).2
    have h2 : pyLower (dropThroughChar '%' host) = dropThroughChar '%' host := by
      apply (pyLower_eq_self_iff _).mpr
      intro c hc
      exact hfixall c (mem_dropThroughChar hc)
    calc pyLower (pyLower (takeUntilChar '%' host) ++ '%' :: dropThroughChar '%' host)
        = pyLower (takeUntilChar '%' host ++ '%' :: dropThroughChar '%' host) := by rw [h1]
      _ = pyLower (takeUntilChar '%' host) ++ pyLowerChar '%' ::
            pyLower (dropThroughChar '%' host) := by
            unfold pyLower
            rw [List.map_append, List.map_cons]
      _ = takeUntilChar '%' host ++ '%' :: dropThroughChar '%' host := by
            rw [h1, h2]
            rfl
      _ = host := takeUntil_append_dropThrough hmem
  · rw [if_neg hpc]
    refine ⟨_, rfl, ?_⟩
    rw [pyLower_idem, hfix]

/-! ### Character facts for rebuilt components -/

lemma urlencode_char_spec (pairs : List (List Char × List Char)) :
    ∀ c ∈ urlencode pairs,
      isAlwaysSafeByte c.toNat = true ∨ c = '+' ∨ c = '%' ∨ c = '=' ∨ c = '&' := by
  induction pairs with
  | nil => intro c hc; simp [urlencode, joinAmp] at hc
  | cons kv rest ih =>
    intro c hc
    cases rest with
    | nil =>
      have hc2 : c ∈ pyQuotePlus kv.1 ++ '=' :: pyQuotePlus kv.2 := by
        simpa [urlencode, joinAmp] using hc
      rw [List.mem_append, List.mem_cons] at hc2
      rcases hc2 with hc2 | rfl | hc2
      · rcases pyQuotePlus_char_spec _ _ hc2 with h | h | h
        · exact Or.inl h
        · exact Or.inr (Or.inl h)
        · exact Or.inr (Or.inr (Or.inl h))
      · exact Or.inr (Or.inr (Or.inr (Or.inl rfl)))
      · rcases pyQuotePlus_char_spec _ _ hc2 with h | h | h
        · exact Or.inl h
        · exact Or.inr (Or.inl h)
        · exact Or.inr (Or.inr (Or.inl h))
    | cons kv2 rest2 =>
      have hc2 : c ∈ (pyQuotePlus kv.1 ++ '=' :: pyQuotePlus kv.2)
          ++ '&' :: urlencode (kv2 :: rest2) := by
        simpa [urlencode, joinAmp] using hc
      rw [List.mem_append, List.mem_cons] at hc2
      rcases hc2 with hc2 | rfl | hc2
      · rw [List.mem_append, List.mem_cons] at hc2
        rcases hc2 with hc2 | rfl | hc2
        · rcases pyQuotePlus_char_spec _ _ hc2 with h | h | h
          · exact Or.inl h
          · exact Or.inr (Or.inl h)
          · exact Or.inr (Or.inr (Or.inl h))
        · exact Or.inr (Or.inr (Or.inr (Or.inl rfl)))
        · rcases pyQuotePlus_char_spec _ _ hc2 with h | h | h
          · exact Or.inl h
          · exact Or.inr (Or.inl h)
          · exact Or.inr (Or.inr (Or.inl h))
      · exact Or.inr (Or.inr (Or.inr (Or.inr rfl)))
      · exact ih c hc2

lemma urlencode_no_specials (pairs : List (List Char × List Char)) :
    ∀ c ∈ urlencode pairs, isUnsafeUrlByte c = false ∧ c ≠ '#' ∧ c ≠ '?' := by
  intro c hc
  have hspec := urlencode_char_spec pairs c hc
  have htn : isAlwaysSafeByte c.toNat = true ∨ c.toNat = 43 ∨ c.toNat = 37
      ∨ c.toNat = 61 ∨ c.toNat = 38 := by
    rcases hspec with h | rfl | rfl | rfl | rfl
    · exact Or.inl h
    · right; left; rfl
    · right; right; left; rfl
    · right; right; right; left; rfl
    · right; right; right; right; rfl
  have hb : 33 ≤ c.toNat ∧ c.toNat ≠ 35 ∧ c.toNat ≠ 63 := by
    rcases htn with h | h | h | h | h
    · rw [isAlwaysSafeByte_iff] at h
      omega
    all_goals omega
  refine ⟨?_, ?_, ?_⟩
  · unfold isUnsafeUrlByte
    simp only [Bool.or_eq_false_iff, decide_eq_false_iff_not]
    refine ⟨⟨?_, ?_⟩, ?_⟩ <;>
      (intro hc2; rw [char_eq_iff_toNat] at hc2; revert hc2; simp; omega)
  · intro hc2
    rw [char_eq_iff_toNat] at hc2
    revert hc2
    simp
    omega
  · intro hc2
    rw [char_eq_iff_toNat] at hc2
    revert hc2
    simp
    omega

/-- The raw hostname characters: netloc characters other than `:` and `@`. -/
lemma hostinfo_fst_subset (netloc : List Char) (hbr : '[' ∉ netloc) :
    ∀ d ∈ (hostinfoOf netloc).1, d ∈ netloc ∧ d ≠ ':' ∧ d ≠ '@' := by
  unfold hostinfoOf
  have hbr2 : '[' ∉ afterLastChar '@' netloc :=
    fun hc => hbr (mem_afterLastChar hc).2
  simp only [contains_eq_false_of_not_mem hbr2, Bool.false_eq_true, if_false]
  intro d hd
  obtain ⟨hd1, hd2⟩ := mem_takeUntilChar hd
  obtain ⟨hd3, hd4⟩ := mem_afterLastChar hd2
  exact ⟨hd4, hd1, hd3⟩

/-- Property transport from the raw hostname to the normalized host. -/
lemma mem_pyLower_hostnameOf {netloc H : List Char} (hh : hostnameOf netloc = some H)
    (P : Char → Prop) (hP : ∀ d ∈ (hostinfoOf netloc).1, P d)
    (hPp : P '%') (hPl : ∀ d, P d → P (pyLowerChar d)) :
    ∀ c ∈ pyLower H, P c := by
  unfold hostnameOf at hh
  by_cases hne : (hostinfoOf netloc).1 = []
  · rw [if_pos hne] at hh
    simp at hh
  rw [if_neg hne] at hh
  by_cases hpc : (hostinfoOf netloc).1.contains '%' = true
  · rw [if_pos hpc] at hh
    injection hh with hh
    subst hh
    intro c hc
    simp only [pyLower, List.mem_map] at hc
    obtain ⟨d, hd, rfl⟩ := hc
    apply hPl
    rw [List.mem_append, List.mem_cons] at hd
    rcases hd with hd | rfl | hd
    · simp only [pyLower, List.mem_map] at hd
      obtain ⟨e, he, rfl⟩ := hd
      exact hPl e (hP e (mem_takeUntilChar he).2)
    · exact hPp
    · exact hP d (mem_dropThroughChar hd)
  · rw [if_neg hpc] at hh
    injection hh with hh
    subst hh
    intro c hc
    simp only [pyLower, List.mem_map] at hc
    obtain ⟨d, hd, rfl⟩ := hc
    obtain ⟨e, he, rfl⟩ := hd
    exact hPl _ (hPl e (hP e he))

lemma hostnameOf_some_ne_nil {netloc H : List Char} (hh : hostnameOf netloc = some H) :
    H ≠ [] := by
  unfold hostnameOf at hh
  by_cases hne : (hostinfoOf netloc).1 = []
  · rw [if_pos hne] at hh
    simp at hh
  rw [if_neg hne] at hh
  by_cases hpc : (hostinfoOf netloc).1.contains '%' = true
  · rw [if_pos hpc] at hh
    injection hh with hh
    subst hh
    simp
  · rw [if_neg hpc] at hh
    injection hh with hh
    subst hh
    unfold pyLower
    simp [hne]

lemma portOf_ok_le {netloc : List Char} {p : Nat} (h : portOf netloc = .ok (some p)) :
    p ≤ 65535 := by
  unfold portOf at h
  cases hs : (hostinfoOf netloc).2 with
  | none =>
    rw [hs] at h
    simp at h
  | some q =>
    rw [hs] at h
    split at h
    · rename_i heq
      exact absurd heq (by simp)
    · rename_i pp heq
      split at h
      · split at h
        · rename_i hle
          injection h with h2
          injection h2 with h3
          omega
        · exact absurd h (by simp)
      · exact absurd h (by simp)

lemma pyUrlunsplit_head (scheme netloc1 path query : List Char)
    (hs_ne : scheme ≠ []) (hn_ne : netloc1 ≠ []) :
    (pyUrlunsplit scheme netloc1 path query []).head? = scheme.head? := by
  obtain ⟨a, t, rfl⟩ : ∃ a t, scheme = a :: t := by
    cases scheme with
    | nil => exact absurd rfl hs_ne
    | cons a t => exact ⟨a, t, rfl⟩
  unfold pyUrlunsplit
  rw [if_neg (show ¬(([] : List Char) ≠ []) by simp)]
  rw [if_pos (show (a :: t) ≠ [] by simp)]
  rw [if_pos (show netloc1 ≠ [] ∨ ((a :: t) ≠ [] ∧ (a :: t) ∈ usesNetlocSchemes ∧
    ¬ startsWithList ['/', '/'] path = true) from Or.inl hn_ne)]
  by_cases hq : query ≠ []
  · rw [if_pos hq, List.cons_append, List.cons_append, List.head?_cons]
    rfl
  · rw [if_neg hq, List.cons_append, List.head?_cons]
    rfl

lemma not_isPySpace_of_toNat {c : Char} (h : 33 ≤ c.toNat) : ¬ isPySpace c = true := by
  intro hc
  unfold isPySpace at hc
  simp only [Bool.or_eq_true, decide_eq_true_eq] at hc
  rcases hc with ((((rfl | rfl) | rfl) | rfl) | rfl) | rfl <;> exact absurd h (by decide)

lemma safe_lower_char {c : Char} (h1 : 97 ≤ c.toNat) (h2 : c.toNat ≤ 122) :
    isUnsafeUrlByte c = false ∧ notSpecial c = true ∧
      c ≠ '[' ∧ c ≠ ']' ∧ c ≠ ':' ∧ c ≠ '@' := by
  refine ⟨?_, ?_, ?_, ?_, ?_, ?_⟩
  · unfold isUnsafeUrlByte
    simp only [Bool.or_eq_false_iff, decide_eq_false_iff_not]
    refine ⟨⟨?_, ?_⟩, ?_⟩ <;>
      (intro hc2; rw [char_eq_iff_toNat] at hc2; revert hc2; simp; omega)
  · unfold notSpecial
    simp only [Bool.not_eq_true', Bool.or_eq_false_iff, decide_eq_false_iff_not]
    refine ⟨⟨?_, ?_⟩, ?_⟩ <;>
      (intro hc2; rw [char_eq_iff_toNat] at hc2; revert hc2; simp; omega)
  all_goals (intro hc2; rw [char_eq_iff_toNat] at hc2; revert hc2; simp; omega)

/-- The normalized host satisfies all the character constraints needed for
reassembly and re-splitting. -/
lemma host_prop_bundle {netloc H : List Char} (hh : hostnameOf netloc = some H)
    (hnchars : ∀ c ∈ netloc, isUnsafeUrlByte c = false ∧ notSpecial c = true)
    (hbr1 : '[' ∉ netloc) (hbr2 : ']' ∉ netloc) :
    ∀ c ∈ pyLower H, isUnsafeUrlByte c = false ∧ notSpecial c = true ∧
      c ≠ '[' ∧ c ≠ ']' ∧ c ≠ ':' ∧ c ≠ '@' := by
  apply mem_pyLower_hostnameOf hh
  · intro d hd
    obtain ⟨hd1, hd2, hd3⟩ := hostinfo_fst_subset netloc hbr1 d hd
    exact ⟨(hnchars d hd1).1, (hnchars d hd1).2, fun hc => hbr1 (hc ▸ hd1),
      fun hc => hbr2 (hc ▸ hd1), hd2, hd3⟩
  · exact ⟨rfl, rfl, by decide, by decide, by decide, by decide⟩
  · intro d hdP
    rcases pyLowerChar_cases d with h1 | ⟨h1, h2, h3⟩
    · rwa [h1]
    · exact safe_lower_char (by omega) (by omega)

/-- `normalize_url` fixes a URL reassembled from canonical parts
(portless variant). -/
lemma normalize_reassembled_plain (scheme host PATH QRY : List Char)
    (hs_ne : scheme ≠ []) (hs_head : headIsAsciiAlpha scheme = true)
    (hs_chars : ∀ c ∈ scheme, schemeChars.contains c = true)
    (hs_low : pyLower scheme = scheme)
    (hostne : host ≠ []) (hostfix : pyLower host = host)
    (hostchars : ∀ c ∈ host, isUnsafeUrlByte c = false ∧ notSpecial c = true ∧
      c ≠ '[' ∧ c ≠ ']' ∧ c ≠ ':' ∧ c ≠ '@')
    (hp_head : PATH.headD ' ' = '/')
    (hp_chars : ∀ c ∈ PATH, isUnsafeUrlByte c = false ∧ c ≠ '#' ∧ c ≠ '?')
    (hq_chars : ∀ c ∈ QRY, isUnsafeUrlByte c = false ∧ c ≠ '#' ∧ c ≠ '?')
    (hQ : QRY = [] ∨ urlencode (List.insertionSort (fun x y => pairLe x y = true)
      ((parse_qsl QRY).filter (fun kv =>
        ¬ DEFAULT_TRACKING_PARAMS.contains (pyLower kv.1)))) = QRY)
    (hlast : ¬ isPySpace ((pyUrlunsplit scheme host PATH QRY []).getLastD 'a') = true) :
    normalize_url (pyUrlunsplit scheme host PATH QRY []) =
      .ok (pyUrlunsplit scheme host PATH QRY []) := by
  have hat : '@' ∉ host := fun hc => (hostchars _ hc).2.2.2.2.2 rfl
  have hbr : '[' ∉ host := fun hc => (hostchars _ hc).2.2.1 rfl
  have hcol : ':' ∉ host := fun hc => (hostchars _ hc).2.2.2.2.1 rfl
  have hn_chars : ∀ c ∈ host, isUnsafeUrlByte c = false ∧ notSpecial c = true ∧
      c ≠ '[' ∧ c ≠ ']' := fun c hc =>
    ⟨(hostchars c hc).1, (hostchars c hc).2.1, (hostchars c hc).2.2.1,
      (hostchars c hc).2.2.2.1⟩
  have hcanon := pyUrlsplit_canonical scheme host PATH QRY hs_ne hs_head hs_chars hs_low
    hostne hn_chars hp_head hp_chars hq_chars
  obtain ⟨a, t, hsch⟩ : ∃ a t, scheme = a :: t := by
    cases scheme with
    | nil => exact absurd rfl hs_ne
    | cons a t => exact ⟨a, t, rfl⟩
  have hhead : (pyUrlunsplit scheme host PATH QRY []).head? = some a := by
    rw [pyUrlunsplit_head _ _ _ _ hs_ne hostne, hsch]
    rfl
  have hstrip : pyStrip (pyUrlunsplit scheme host PATH QRY [])
      = pyUrlunsplit scheme host PATH QRY [] := by
    apply pyStrip_eq_self
    · intro c hc
      rw [hhead] at hc
      injection hc with hc
      subst hc
      have ha : isAsciiAlpha a = true := by
        rw [hsch] at hs_head
        exact hs_head
      rw [isAsciiAlpha_iff] at ha
      exact not_isPySpace_of_toNat (by omega)
    · intro c hcl
      have hgl : (pyUrlunsplit scheme host PATH QRY []).getLastD 'a' = c := by
        rw [List.getLastD_eq_getLast?, hcl]
        rfl
      rw [← hgl]
      exact hlast
  have hPne : PATH ≠ [] := by
    intro h
    rw [h] at hp_head
    simp at hp_head
  obtain ⟨H2, hH2, hH2l⟩ := hostnameOf_plain host hostne hat hbr hcol hostfix
  unfold normalize_url
  simp only [hstrip, hcanon]
  rw [if_neg (show ¬(pyLower scheme = [] ∨ host = []) from fun h => h.elim
    (fun h1 => hs_ne (by rwa [hs_low] at h1)) hostne)]
  simp only [hH2, portOf_plain host hat hbr hcol, hH2l, hs_low]
  rw [if_neg hPne]
  by_cases hq2 : QRY ≠ []
  · rw [if_pos hq2]
    rcases hQ with hQ | hQ
    · exact absurd hQ hq2
    rw [hQ]
  · rw [if_neg hq2]

lemma netloc_safe_char {c : Char} (h1 : 33 ≤ c.toNat) (h2 : c.toNat ≤ 122)
    (h3 : c.toNat ≠ 47) (h4 : c.toNat ≠ 63) (h5 : c.toNat ≠ 35)
    (h6 : c.toNat ≠ 91) (h7 : c.toNat ≠ 93) :
    isUnsafeUrlByte c = false ∧ notSpecial c = true ∧ c ≠ '[' ∧ c ≠ ']' := by
  refine ⟨?_, ?_, ?_, ?_⟩
  · unfold isUnsafeUrlByte
    simp only [Bool.or_eq_false_iff, decide_eq_false_iff_not]
    refine ⟨⟨?_, ?_⟩, ?_⟩ <;>
      (intro hc2; rw [char_eq_iff_toNat] at hc2; revert hc2; simp; omega)
  · unfold notSpecial
    simp only [Bool.not_eq_true', Bool.or_eq_false_iff, decide_eq_false_iff_not]
    refine ⟨⟨?_, ?_⟩, ?_⟩ <;>
      (intro hc2; rw [char_eq_iff_toNat] at hc2; revert hc2; simp; omega)
  all_goals (intro hc2; rw [char_eq_iff_toNat] at hc2; revert hc2; simp; omega)

/-- `normalize_url` fixes a URL reassembled from canonical parts
(explicit-port variant). -/
lemma normalize_reassembled_port (scheme host PATH QRY : List Char) (p : Nat)
    (hs_ne : scheme ≠ []) (hs_head : headIsAsciiAlpha scheme = true)
    (hs_chars : ∀ c ∈ scheme, schemeChars.contains c = true)
    (hs_low : pyLower scheme = scheme)
    (hostne : host ≠ []) (hostfix : pyLower host = host)
    (hostchars : ∀ c ∈ host, isUnsafeUrlByte c = false ∧ notSpecial c = true ∧
      c ≠ '[' ∧ c ≠ ']' ∧ c ≠ ':' ∧ c ≠ '@')
    (hple : p ≤ 65535)
    (hcnd : p ≠ 0 ∧ ¬((scheme = "http".data ∧ p = 80) ∨ (scheme = "https".data ∧ p = 443)))
    (hp_head : PATH.headD ' ' = '/')
    (hp_chars : ∀ c ∈ PATH, isUnsafeUrlByte c = false ∧ c ≠ '#' ∧ c ≠ '?')
    (hq_chars : ∀ c ∈ QRY, isUnsafeUrlByte c = false ∧ c ≠ '#' ∧ c ≠ '?')
    (hQ : QRY = [] ∨ urlencode (List.insertionSort (fun x y => pairLe x y = true)
      ((parse_qsl QRY).filter (fun kv =>
        ¬ DEFAULT_TRACKING_PARAMS.contains (pyLower kv.1)))) = QRY)
    (hlast : ¬ isPySpace ((pyUrlunsplit scheme (host ++ ':' :: natToDec p)
      PATH QRY []).getLastD 'a') = true) :
    normalize_url (pyUrlunsplit scheme (host ++ ':' :: natToDec p) PATH QRY []) =
      .ok (pyUrlunsplit scheme (host ++ ':' :: natToDec p) PATH QRY []) := by
  have hat : '@' ∉ host := fun hc => (hostchars _ hc).2.2.2.2.2 rfl
  have hbr : '[' ∉ host := fun hc => (hostchars _ hc).2.2.1 rfl
  have hcol : ':' ∉ host := fun hc => (hostchars _ hc).2.2.2.2.1 rfl
  have hn_ne : host ++ ':' :: natToDec p ≠ [] := by simp
  have hn_chars : ∀ c ∈ host ++ ':' :: natToDec p,
      isUnsafeUrlByte c = false ∧ notSpecial c = true ∧ c ≠ '[' ∧ c ≠ ']' := by
    intro c hc
    rw [List.mem_append, List.mem_cons] at hc
    rcases hc with hc | rfl | hc
    · exact ⟨(hostchars c hc).1, (hostchars c hc).2.1, (hostchars c hc).2.2.1,
        (hostchars c hc).2.2.2.1⟩
    · exact netloc_safe_char (by decide) (by decide) (by decide) (by decide)
        (by decide) (by decide) (by decide)
    · have hd := natToDec_digits p _ hc
      rw [isAsciiDigit_iff] at hd
      exact netloc_safe_char (by omega) (by omega) (by omega) (by omega)
        (by omega) (by omega) (by omega)
  have hcanon := pyUrlsplit_canonical scheme (host ++ ':' :: natToDec p) PATH QRY
    hs_ne hs_head hs_chars hs_low hn_ne hn_chars hp_head hp_chars hq_chars
  obtain ⟨a, t, hsch⟩ : ∃ a t, scheme = a :: t := by
    cases scheme with
    | nil => exact absurd rfl hs_ne
    | cons a t => exact ⟨a, t, rfl⟩
  have hhead : (pyUrlunsplit scheme (host ++ ':' :: natToDec p) PATH QRY []).head?
      = some a := by
    rw [pyUrlunsplit_head _ _ _ _ hs_ne hn_ne, hsch]
    rfl
  have hstrip : pyStrip (pyUrlunsplit scheme (host ++ ':' :: natToDec p) PATH QRY [])
      = pyUrlunsplit scheme (host ++ ':' :: natToDec p) PATH QRY [] := by
    apply pyStrip_eq_self
    · intro c hc
      rw [hhead] at hc
      injection hc with hc
      subst hc
      have ha : isAsciiAlpha a = true := by
        rw [hsch] at hs_head
        exact hs_head
      rw [isAsciiAlpha_iff] at ha
      exact not_isPySpace_of_toNat (by omega)
    · intro c hcl
      have hgl : (pyUrlunsplit scheme (host ++ ':' :: natToDec p) PATH QRY []).getLastD 'a'
          = c := by
        rw [List.getLastD_eq_getLast?, hcl]
        rfl
      rw [← hgl]
      exact hlast
  have hPne : PATH ≠ [] := by
    intro h
    rw [h] at hp_head
    simp at hp_head
  obtain ⟨H2, hH2, hH2l⟩ := hostnameOf_with_port host p hostne hat hbr hcol hostfix
  unfold normalize_url
  simp only [hstrip, hcanon]
  rw [if_neg (show ¬(pyLower scheme = [] ∨ host ++ ':' :: natToDec p = []) from fun h =>
    h.elim (fun h1 => hs_ne (by rwa [hs_low] at h1)) hn_ne)]
  simp only [hH2, portOf_with_port host p hat hbr hcol hple, hH2l, hs_low]
  rw [if_pos hcnd]
  rw [if_neg hPne]
  by_cases hq2 : QRY ≠ []
  · rw [if_pos hq2]
    rcases hQ with hQ | hQ
    · exact absurd hQ hq2
    rw [hQ]
  · rw [if_neg hq2]

/-- C7: `normalize_url` is idempotent on its `.ok` outputs under the amended
side conditions: the input either fails the scheme/netloc well-formedness test
(and is returned stripped), or splits with a nonempty lowercased scheme, a
nonempty netloc carrying a hostname, no bracketed (IPv6) host, and an output
that does not end in Python whitespace.  (The unconditional spec claim is
refuted by `normalize_url_not_idempotent`.) -/
theorem normalize_url_idempotent_on_wellformed (u v : List Char)
    (hok : normalize_url u = .ok v)
    (hcond :
      (∃ sp, pyUrlsplit (pyStrip u) = .ok sp ∧ (pyLower sp.scheme = [] ∨ sp.netloc = [])) ∨
      (∃ sp, pyUrlsplit (pyStrip u) = .ok sp ∧ pyLower sp.scheme ≠ [] ∧ sp.netloc ≠ [] ∧
        (hostnameOf sp.netloc).isSome = true ∧ '[' ∉ sp.netloc ∧
        isPySpace (v.getLastD 'a') = false)) :
    normalize_url v = .ok v := by
  rcases hcond with ⟨sp, hsp, hbad⟩ | ⟨sp, hsp, hs_ne_l, hn_ne, hhsome, hbrn, hlastv⟩
  · have hv : v = pyStrip u := by
      unfold normalize_url at hok
      simp only [hsp] at hok
      rw [if_pos hbad] at hok
      exact (Except.ok.inj hok).symm
    subst hv
    unfold normalize_url
    simp only [pyStrip_idem, hsp]
    rw [if_pos hbad]
  · unfold normalize_url at hok
    simp only [hsp] at hok
    rw [if_neg (fun h => h.elim hs_ne_l hn_ne)] at hok
    obtain ⟨h0, hh0⟩ := Option.isSome_iff_exists.mp hhsome
    simp only [hh0] at hok
    have hsch := pyUrlsplit_ok_scheme hsp
    rcases hsch with hnil | ⟨hfix, hhead, hchars⟩
    · exact absurd (show pyLower sp.scheme = [] by rw [hnil]; rfl) hs_ne_l
    obtain ⟨hnetfacts, hbal⟩ := pyUrlsplit_ok_netloc hsp
    obtain ⟨hpathfacts, hpathhead⟩ := pyUrlsplit_ok_path hsp
    have hsne : sp.scheme ≠ [] := by
      intro h
      exact hs_ne_l (by rw [h]; rfl)
    have hbrr : ']' ∉ sp.netloc := by
      intro hc
      have h1 : sp.netloc.contains ']' = true := List.elem_iff.mpr hc
      rw [← hbal] at h1
      exact hbrn (List.elem_iff.mp h1)
    have hostfacts := host_prop_bundle hh0 hnetfacts hbrn hbrr
    have hostne : pyLower h0 ≠ [] := by
      have h1 := hostnameOf_some_ne_nil hh0
      unfold pyLower
      simp [h1]
    have hostfix : pyLower (pyLower h0) = pyLower h0 := pyLower_idem h0
    set PATH := if sp.path = [] then ['/'] else sp.path with hPATH
    set QRY := if sp.query ≠ [] then
        urlencode (List.insertionSort (fun x y => pairLe x y = true)
          ((parse_qsl sp.query).filter fun kv =>
            ¬ DEFAULT_TRACKING_PARAMS.contains (pyLower kv.1)))
      else sp.query with hQRY
    have hp_head : PATH.headD ' ' = '/' := by
      rw [hPATH]
      by_cases hp : sp.path = []
      · rw [if_pos hp]
        rfl
      · rw [if_neg hp]
        rcases hpathhead hn_ne with h | h
        · exact absurd h hp
        · exact h
    have hp_chars : ∀ c ∈ PATH, isUnsafeUrlByte c = false ∧ c ≠ '#' ∧ c ≠ '?' := by
      rw [hPATH]
      by_cases hp : sp.path = []
      · rw [if_pos hp]
        intro c hc
        rw [List.mem_singleton] at hc
        subst hc
        exact ⟨rfl, by decide, by decide⟩
      · rw [if_neg hp]
        exact hpathfacts
    have hq_chars : ∀ c ∈ QRY, isUnsafeUrlByte c = false ∧ c ≠ '#' ∧ c ≠ '?' := by
      rw [hQRY]
      by_cases hq : sp.query ≠ []
      · rw [if_pos hq]
        exact urlencode_no_specials _
      · rw [if_neg hq]
        rw [not_not] at hq
        rw [hq]
        intro c hc
        simp at hc
    have hQ : QRY = [] ∨ urlencode (List.insertionSort (fun x y => pairLe x y = true)
        ((parse_qsl QRY).filter (fun kv =>
          ¬ DEFAULT_TRACKING_PARAMS.contains (pyLower kv.1)))) = QRY := by
      by_cases hq0 : sp.query ≠ []
      · right
        rw [hQRY, if_pos hq0]
        rw [parse_qsl_urlencode]
        rw [filter_insertionSort_filter]
        rw [insertionSort_pairLe_idem]
      · left
        rw [hQRY, if_neg hq0]
        rw [not_not] at hq0
        exact hq0
    rw [hfix] at hok
    cases hport : portOf sp.netloc with
    | error e =>
      rw [hport] at hok
      exact absurd hok (by simp)
    | ok port =>
      rw [hport] at hok
      cases port with
      | none =>
        have hv : v = pyUrlunsplit sp.scheme (pyLower h0) PATH QRY [] :=
          (Except.ok.inj hok).symm
        rw [hv]
        apply normalize_reassembled_plain sp.scheme (pyLower h0) PATH QRY hsne hhead hchars
          hfix hostne hostfix hostfacts hp_head hp_chars hq_chars hQ
        rw [← hv, hlastv]
        simp
      | some p =>
        have hple : p ≤ 65535 := portOf_ok_le hport
        have hv0 : v = pyUrlunsplit sp.scheme
            (if p ≠ 0 ∧ ¬((sp.scheme = "http".data ∧ p = 80) ∨
                (sp.scheme = "https".data ∧ p = 443))
             then pyLower h0 ++ ':' :: natToDec p else pyLower h0) PATH QRY [] :=
          (Except.ok.inj hok).symm
        by_cases hcnd : p ≠ 0 ∧ ¬((sp.scheme = "http".data ∧ p = 80) ∨
            (sp.scheme = "https".data ∧ p = 443))
        · rw [if_pos hcnd] at hv0
          rw [hv0]
          apply normalize_reassembled_port sp.scheme (pyLower h0) PATH QRY p hsne hhead
            hchars hfix hostne hostfix hostfacts hple hcnd hp_head hp_chars hq_chars hQ
          rw [← hv0, hlastv]
          simp
        · rw [if_neg hcnd] at hv0
          rw [hv0]
          apply normalize_reassembled_plain sp.scheme (pyLower h0) PATH QRY hsne hhead
            hchars hfix hostne hostfix hostfacts hp_head hp_chars hq_chars hQ
          rw [← hv0, hlastv]
          simp

/-- C7 counterexample: `normalize_url` is not idempotent as stated in the
spec.  Normalizing `"http://h/p ?utm_source=1"` keeps the trailing space of
the path (the strip happens before splitting), giving `"http://h/p "`; a
second normalization strips that space, giving a different string. -/
theorem normalize_url_not_idempotent :
    normalize_url_str "http://h/p ?utm_source=1" = .ok "http://h/p " ∧
    normalize_url_str "http://h/p " = .ok "http://h/p" ∧
    ("http://h/p " : String) ≠ "http://h/p" :=
  ⟨rfl, rfl, by decide⟩

/-- C7 witness: the amended idempotence theorem applied at a concrete
well-formed URL whose tracking parameter is dropped and query re-sorted. -/
theorem normalize_url_idempotent_on_wellformed_witness :
    normalize_url "https://Example.com/path?a=1&utm_source=x&b=2#frag".data
        = .ok "https://example.com/path?a=1&b=2".data ∧
    normalize_url "https://example.com/path?a=1&b=2".data
        = .ok "https://example.com/path?a=1&b=2".data :=
  ⟨rfl, normalize_url_idempotent_on_wellformed
    "https://Example.com/path?a=1&utm_source=x&b=2#frag".data
    "https://example.com/path?a=1&b=2".data rfl
    (Or.inr ⟨⟨"https".data, "Example.com".data, "/path".data,
        "a=1&utm_source=x&b=2".data, "frag".data⟩,
      rfl, by decide, by decide, rfl, by decide, rfl⟩)⟩

end SimpleCrawler
